import Mathlib

/-!
Verification of the EZproxy 856$u URL normalizer (`fix_ezproxy_url`) and the
record-rewriting pass (`process_file`) of `qurls.py`.

Python strings are modelled as `List Char` (Unicode scalar values, matching
Python's `str`).  The `urllib.parse` helpers used by the source
(`urlparse`, `urlunparse`, `parse_qsl`, `urlencode`, `quote`, `unquote`)
are embedded below following CPython 3.11's implementations: percent-encoding
goes through UTF-8 bytes, percent-decoding decodes `%XX` hex pairs inside
ASCII runs to bytes and then UTF-8-decodes them with replacement on errors.
Two additions of later 3.11 security patches — stripping of leading C0
control/space characters and validation of bracketed (IPv6) hosts — are not
modelled; no claim and no example exercises them.
-/

namespace Qurls

abbrev Str := List Char

/-! ### Character classes -/

def isAsciiUpper (c : Char) : Bool := decide (65 ≤ c.toNat ∧ c.toNat ≤ 90)

def isAsciiLower (c : Char) : Bool := decide (97 ≤ c.toNat ∧ c.toNat ≤ 122)

def isAsciiAlpha (c : Char) : Bool := isAsciiUpper c || isAsciiLower c

def isAsciiDigit (c : Char) : Bool := decide (48 ≤ c.toNat ∧ c.toNat ≤ 57)

/-- `scheme_chars` of `urllib.parse`: letters, digits and `+` (43), `-` (45),
`.` (46). -/
def isSchemeChar (c : Char) : Bool :=
  isAsciiAlpha c || isAsciiDigit c || decide (c.toNat = 43) || decide (c.toNat = 45) ||
    decide (c.toNat = 46)

/-- ASCII lowercasing of one character (`str.lower` applied to a scheme,
which has already been checked to be ASCII scheme characters). -/
def lowerChar (c : Char) : Char :=
  if 65 ≤ c.toNat ∧ c.toNat ≤ 90 then Char.ofNat (c.toNat + 32) else c

def isHexDigitChar (c : Char) : Bool :=
  isAsciiDigit c || decide (65 ≤ c.toNat ∧ c.toNat ≤ 70) ||
    decide (97 ≤ c.toNat ∧ c.toNat ≤ 102)

def hexVal (c : Char) : Nat :=
  if isAsciiDigit c then c.toNat - 48
  else if c.toNat ≤ 70 then c.toNat - 55
  else c.toNat - 87

/-- Upper-case hex digit for a nibble, as produced by `urllib.parse.quote`. -/
def hexDigitUpper (n : Nat) : Char :=
  if n < 10 then Char.ofNat (48 + n) else Char.ofNat (55 + n)

/-! ### UTF-8 encoding and decoding (with replacement, as in CPython) -/

/-- UTF-8 encoding of one code point. -/
def utf8EncodeNat (n : Nat) : List Nat :=
  if n < 128 then [n]
  else if n < 2048 then [192 + n / 64, 128 + n % 64]
  else if n < 65536 then [224 + n / 4096, 128 + n / 64 % 64, 128 + n % 64]
  else [240 + n / 262144, 128 + n / 4096 % 64, 128 + n / 64 % 64, 128 + n % 64]

def utf8Encode (s : Str) : List Nat := s.flatMap (fun c => utf8EncodeNat c.toNat)

/-- Tokens seen by the percent-decoder: bytes (from ASCII characters and
decoded `%XX` pairs) interleaved with non-ASCII characters that CPython's
`unquote` passes through untouched. -/
abbrev Tok := Sum Nat Char

def replChar : Char := Char.ofNat 65533

/-- Lower bound for a valid second byte after the given lead byte
(UTF-8 shortest-form and surrogate restrictions). -/
def cont2Lo (lead : Nat) : Nat :=
  if lead = 224 then 160 else if lead = 240 then 144 else 128

/-- Upper (exclusive) bound for a valid second byte after the given lead byte. -/
def cont2Hi (lead : Nat) : Nat :=
  if lead = 237 then 160 else if lead = 244 then 144 else 192

/-- Decoder state for an incomplete UTF-8 sequence:
`(accumulated value, continuation bytes still needed, lower and upper
(exclusive) bound for the next byte)`. -/
abbrev Utf8Pending := Nat × Nat × Nat × Nat

/-- Processing one lead byte with no pending sequence: the emitted characters
and the new pending state. -/
def utf8StartByte (b : Nat) : List Char × Option Utf8Pending :=
  if b < 128 then ([Char.ofNat b], none)
  else if b < 194 then ([replChar], none)
  else if b < 224 then ([], some (b - 192, 1, 128, 192))
  else if b < 240 then ([], some (b - 224, 2, cont2Lo b, cont2Hi b))
  else if b < 245 then ([], some (b - 240, 3, cont2Lo b, cont2Hi b))
  else ([replChar], none)

/-- Processing one byte with a pending sequence: a valid continuation byte
extends (or completes) the sequence; an invalid one emits a replacement
character for the consumed prefix and reprocesses the byte as a lead
(CPython's maximal-subpart replacement behaviour). -/
def utf8ContByte (p : Utf8Pending) (b : Nat) : List Char × Option Utf8Pending :=
  if p.2.2.1 ≤ b ∧ b < p.2.2.2 then
    if p.2.1 = 1 then ([Char.ofNat (p.1 * 64 + (b - 128))], none)
    else ([], some (p.1 * 64 + (b - 128), p.2.1 - 1, 128, 192))
  else
    let r := utf8StartByte b
    (replChar :: r.1, r.2)

/-- One decoding step on a token: a non-ASCII character token flushes any
incomplete sequence (CPython decodes each ASCII run separately). -/
def utf8Step (st : Option Utf8Pending) (t : Tok) : List Char × Option Utf8Pending :=
  match t, st with
  | .inr c, none => ([c], none)
  | .inr c, some _ => ([replChar, c], none)
  | .inl b, none => utf8StartByte b
  | .inl b, some p => utf8ContByte p b

/-- Running the decoder; a pending sequence at the end of input yields one
replacement character. -/
def utf8Run (st : Option Utf8Pending) : List Tok → List Char
  | [] => if st.isSome then [replChar] else []
  | t :: ts =>
    let r := utf8Step st t
    r.1 ++ utf8Run r.2 ts

/-- UTF-8 decoding with `errors='replace'` over the token stream. -/
def utf8DecodeT (ts : List Tok) : List Char := utf8Run none ts

/-! ### quote / unquote (percent-encoding) -/

/-- Bytes never escaped by `quote`: ASCII letters, digits and `_.-~`. -/
def alwaysSafeByte (b : Nat) : Bool :=
  decide ((65 ≤ b ∧ b ≤ 90) ∨ (97 ≤ b ∧ b ≤ 122) ∨ (48 ≤ b ∧ b ≤ 57) ∨
    b = 95 ∨ b = 46 ∨ b = 45 ∨ b = 126)

def quoteByte (safe : Str) (b : Nat) : Str :=
  if alwaysSafeByte b || safe.any (fun c => c.toNat == b && decide (b < 128)) then
    [Char.ofNat b]
  else ['%', hexDigitUpper (b / 16), hexDigitUpper (b % 16)]

/-- `urllib.parse.quote(s, safe=safe)`: UTF-8-encode, escape unsafe bytes. -/
def quote (safe : Str) (s : Str) : Str := (utf8Encode s).flatMap (quoteByte safe)

/-- Tokenization step of `unquote`: `%XX` with two hex digits becomes a byte,
a lone `%` stays a literal `%` byte, ASCII characters become bytes,
non-ASCII characters pass through. -/
def unqTokens : Str → List Tok
  | [] => []
  | '%' :: c1 :: c2 :: rest =>
    if isHexDigitChar c1 && isHexDigitChar c2 then
      .inl (hexVal c1 * 16 + hexVal c2) :: unqTokens rest
    else .inl 37 :: unqTokens (c1 :: c2 :: rest)
  | '%' :: rest => .inl 37 :: unqTokens rest
  | c :: rest =>
    if c.toNat < 128 then .inl c.toNat :: unqTokens rest
    else .inr c :: unqTokens rest

/-- `urllib.parse.unquote(s)` with the default UTF-8 / replace handling. -/
def unquote (s : Str) : Str := utf8DecodeT (unqTokens s)

/-! ### parse_qsl / urlencode -/

/-- Python `str.split(sep)` for a single-character separator. -/
def splitChar (sep : Char) : Str → List Str
  | [] => [[]]
  | c :: rest =>
    if c = sep then [] :: splitChar sep rest
    else
      match splitChar sep rest with
      | [] => [[c]]
      | h :: t => (c :: h) :: t

/-- Python `s.split('=', 1)` when `'='` occurs (otherwise `none`). -/
def splitEqOnce (s : Str) : Option (Str × Str) :=
  if '=' ∈ s then
    some (s.takeWhile (fun c => decide (c ≠ '=')),
      s.drop ((s.takeWhile (fun c => decide (c ≠ '='))).length + 1))
  else none

def plusToSpace (s : Str) : Str := s.map (fun c => if c = '+' then ' ' else c)

/-- Processing of one `name=value` piece by `parse_qsl` (empty pieces are
skipped; a piece without `=` keeps a blank value only with
`keep_blank_values`; names and values are plus-decoded and unquoted). -/
def qslStep (keepBlank : Bool) (nv : Str) (acc : List (Str × Str)) : List (Str × Str) :=
  if nv = [] then acc
  else
    match splitEqOnce nv with
    | some kv =>
      if kv.2 ≠ [] ∨ keepBlank = true then
        (unquote (plusToSpace kv.1), unquote (plusToSpace kv.2)) :: acc
      else acc
    | none =>
      if keepBlank = true then
        (unquote (plusToSpace nv), unquote (plusToSpace [])) :: acc
      else acc

/-- `urllib.parse.parse_qsl(qs, keep_blank_values=keepBlank)` (separator `&`). -/
def parse_qsl (keepBlank : Bool) (qs : Str) : List (Str × Str) :=
  (if qs = [] then [] else splitChar '&' qs).foldr (qslStep keepBlank) []

/-- `sep.join(pieces)` for a one-character separator. -/
def joinSep (sep : Char) : List Str → Str
  | [] => []
  | x :: t => x ++ (if t = [] then [] else sep :: joinSep sep t)

/-- `urllib.parse.urlencode(ps, doseq=True, quote_via=quote)` on string pairs:
keys and values quoted with `safe=''`, joined with `=` and `&`. -/
def urlencode (ps : List (Str × Str)) : Str :=
  joinSep '&' (ps.map (fun kv => quote [] kv.1 ++ '=' :: quote [] kv.2))

/-! ### urlparse / urlunparse -/

structure ParseResult where
  scheme : Str
  netloc : Str
  path : Str
  params : Str
  query : Str
  fragment : Str
deriving DecidableEq, Repr

/-- The tab/CR/LF characters removed from a URL before splitting
(`_UNSAFE_URL_BYTES_TO_REMOVE`). -/
def tabCrLf : Str := ['\t', '\r', '\n']

def cleanUrl (s : Str) : Str := s.filter (fun c => decide (c ∉ tabCrLf))

/-- Scheme splitting step of `urlsplit`: the part before the first `:` must be
nonempty, start with an ASCII letter and consist of scheme characters. -/
def splitScheme (url : Str) : Str × Str :=
  let pre := url.takeWhile (fun c => decide (c ≠ ':'))
  if pre.length < url.length ∧ pre ≠ [] ∧ isAsciiAlpha (pre.headD ' ') = true ∧
      (∀ c ∈ pre, isSchemeChar c = true) then
    (pre.map lowerChar, url.drop (pre.length + 1))
  else ([], url)

/-- Netloc splitting step of `urlsplit`: after a leading `//`, the netloc runs
until the first of `/?#`. -/
def splitNetloc (url : Str) : Str × Str :=
  if url.take 2 = ['/', '/'] then
    let nl := (url.drop 2).takeWhile (fun c => decide (c ≠ '/' ∧ c ≠ '?' ∧ c ≠ '#'))
    (nl, (url.drop 2).drop nl.length)
  else ([], url)

/-- The `Invalid IPv6 URL` check of `urlsplit`. -/
def bracketBad (nl : Str) : Bool := decide ('[' ∈ nl) != decide (']' ∈ nl)

/-- Split at the first occurrence of `c` if present (`s.split(c, 1)`). -/
def splitFirstOr (c : Char) (s : Str) : Str × Str :=
  if c ∈ s then
    (s.takeWhile (fun x => decide (x ≠ c)),
      s.drop ((s.takeWhile (fun x => decide (x ≠ c))).length + 1))
  else (s, [])

/-- Split `s` at its last occurrence of `c`: `s = a ++ c :: b` with `c ∉ b`. -/
def splitLast (c : Char) (s : Str) : Option (Str × Str) :=
  let b := (s.reverse.takeWhile (fun x => decide (x ≠ c))).reverse
  if b.length = s.length then none
  else some (s.take (s.length - b.length - 1), b)

/-- `_splitparams`: split `path;params` at the first `;` after the last `/`. -/
def splitparams (url : Str) : Str × Str :=
  if ';' ∈ url then
    match splitLast '/' url with
    | some ab =>
      if ';' ∈ ab.2 then
        (ab.1 ++ '/' :: ab.2.takeWhile (fun x => decide (x ≠ ';')),
          ab.2.drop ((ab.2.takeWhile (fun x => decide (x ≠ ';'))).length + 1))
      else (url, [])
    | none =>
      (url.takeWhile (fun x => decide (x ≠ ';')),
        url.drop ((url.takeWhile (fun x => decide (x ≠ ';'))).length + 1))
  else (url, [])

/-- `urllib.parse.urlparse` (scheme split, netloc split, IPv6 bracket check,
fragment split, query split, params split).  `none` models the raised
`ValueError`, which `fix_ezproxy_url` catches. -/
def urlparse (u : Str) : Option ParseResult :=
  let url0 := cleanUrl u
  let su := splitScheme url0
  let nu := splitNetloc su.2
  if bracketBad nu.1 = true then none
  else
    let uf := splitFirstOr '#' nu.2
    let uq := splitFirstOr '?' uf.1
    let pp := splitparams uq.1
    some ⟨su.1, nu.1, pp.1, pp.2, uq.2, uf.2⟩

/-- `uses_netloc` of `urllib.parse`. -/
def uses_netloc : List Str :=
  ["", "ftp", "http", "gopher", "nntp", "telnet", "imap", "wais", "file",
    "mms", "https", "shttp", "snews", "prospero", "rtsp", "rtsps", "rtspu",
    "rsync", "svn", "svn+ssh", "sftp", "nfs", "git", "git+ssh", "ws",
    "wss"].map String.data

/-- `urllib.parse.urlunsplit`. -/
def urlunsplit (scheme netloc url0 query fragment : Str) : Str :=
  let url1 :=
    if netloc ≠ [] ∨ (scheme ≠ [] ∧ scheme ∈ uses_netloc ∧ url0.take 2 ≠ ['/', '/']) then
      '/' :: '/' :: (netloc ++ (if url0 ≠ [] ∧ url0.take 1 ≠ ['/'] then '/' :: url0 else url0))
    else url0
  let url2 := if scheme ≠ [] then scheme ++ ':' :: url1 else url1
  let url3 := if query ≠ [] then url2 ++ '?' :: query else url2
  if fragment ≠ [] then url3 ++ '#' :: fragment else url3

/-- `urllib.parse.urlunparse`. -/
def urlunparse (p : ParseResult) : Str :=
  urlunsplit p.scheme p.netloc
    (if p.params ≠ [] then p.path ++ ';' :: p.params else p.path) p.query p.fragment

/-! ### fix_ezproxy_url -/

/-- Python's substring test `pat in s`. -/
def hasSub (pat : Str) : Str → Bool
  | [] => pat.isEmpty
  | c :: rest => decide ((c :: rest).take pat.length = pat) || hasSub pat rest

/-- The scanning loop of `fix_ezproxy_url`: first `url`/`qurl` value and the
`had_url` / `had_qurl` flags. -/
def targetScan (ps : List (Str × Str)) : Option Str × Bool × Bool :=
  ps.foldl (fun st kv =>
    if kv.1 = "url".data ∧ st.1 = none then (some kv.2, true, st.2.2)
    else if kv.1 = "qurl".data ∧ st.1 = none then (some kv.2, st.2.1, true)
    else st) (none, false, false)

/-- The list-comprehension filter of `fix_ezproxy_url`:
keep pairs whose key is neither `url` nor `qurl`. -/
def nonTargetKV (kv : Str × Str) : Bool :=
  decide (kv.1 ≠ "url".data ∧ kv.1 ≠ "qurl".data)

/-- The rebuilt parameter list of `fix_ezproxy_url`: the original pairs
without any `url`/`qurl` pair, with `(qurl, unquoted target)` appended. -/
def newParamsOf (params : List (Str × Str)) (targetVal : Str) : List (Str × Str) :=
  params.filter nonTargetKV ++ [("qurl".data, unquote targetVal)]

/-- `fix_ezproxy_url` of `qurls.py` (the URL Normalizer). -/
def fix_ezproxy_url (u : Str) : Str × Bool :=
  match urlparse u with
  | none => (u, false)
  | some parsed =>
    if hasSub "/login".data parsed.path = false ∨ parsed.query = [] then (u, false)
    else
      let params := parse_qsl true parsed.query
      let scan := targetScan params
      match scan.1 with
      | none => (u, false)
      | some targetVal =>
        let newQuery := urlencode (newParamsOf params targetVal)
        let fixed := urlunparse { parsed with query := newQuery }
        (fixed, decide (fixed ≠ u) || scan.2.1)

/-- The once-decoded promoted value of a URL, when the transform applies
(the value bound to `raw_target` in the source). -/
def rawTargetOf (u : Str) : Option Str :=
  match urlparse u with
  | none => none
  | some parsed =>
    if hasSub "/login".data parsed.path = false ∨ parsed.query = [] then none
    else
      match (targetScan (parse_qsl true parsed.query)).1 with
      | none => none
      | some targetVal => some (unquote targetVal)

/-! ### Record model and process_file -/

structure MarcField where
  tag : Str
  subfields : List (Str × Str)
deriving DecidableEq, Repr

structure MarcRecord where
  f001 : Option Str
  fields : List MarcField
deriving DecidableEq, Repr

/-- `Field.get_subfields(code)`: values of the subfields with this code,
in order. -/
def getSubfields (code : Str) (f : MarcField) : List Str :=
  (f.subfields.filter (fun sc => decide (sc.1 = code))).map (fun sc => sc.2)

/-- The delete-then-readd rewrite of the `$u` subfields: all `u` subfields
removed, the new values appended at the end in order. -/
def setSubfieldsU (f : MarcField) (vals : List Str) : MarcField :=
  { f with subfields :=
      f.subfields.filter (fun sc => decide (sc.1 ≠ "u".data)) ++
        vals.map (fun v => ("u".data, v)) }

/-- Python `str.strip()`. -/
def pyStrip (s : Str) : Str :=
  ((s.dropWhile Char.isWhitespace).reverse.dropWhile Char.isWhitespace).reverse

/-- Per-field step of the loop body: returns the (possibly rewritten) field,
the `sub_changed_any` flag, and the `(original, updated)` pairs of the
values that changed, in order. -/
def processField (f : MarcField) : MarcField × Bool × List (Str × Str) :=
  let subus := getSubfields "u".data f
  if subus = [] then (f, false, [])
  else
    let results := subus.map (fun u => (u, fix_ezproxy_url u))
    let newSubus := results.map (fun r => r.2.1)
    let changedPairs := (results.filter (fun r => r.2.2)).map (fun r => (r.1, r.2.1))
    let anyChanged := results.any (fun r => r.2.2)
    (if anyChanged then setSubfieldsU f newSubus else f, anyChanged, changedPairs)

/-- Per-record step: rewrites the `856` fields, reports whether the record
changed and its change-log rows `(record id, original, updated)`. -/
def processRecord (rec : MarcRecord) : MarcRecord × Bool × List (Str × Str × Str) :=
  let recId := pyStrip (rec.f001.getD [])
  let results := rec.fields.map (fun f =>
    if f.tag = "856".data then processField f else (f, false, []))
  ({ rec with fields := results.map (fun r => r.1) },
    results.any (fun r => r.2.1),
    (results.flatMap (fun r => r.2.2)).map (fun p => (recId, p.1, p.2)))

structure RunState where
  total : Nat
  touched : Nat
  changedLinks : Nat
  rows : List (Str × Str × Str)
  outRecs : List MarcRecord
deriving Repr

/-- The record loop of `process_file`: counters and accumulated rows. -/
def processRecords (recs : List MarcRecord) : RunState :=
  recs.foldl (fun st rec =>
    let pr := processRecord rec
    { total := st.total + 1
      touched := st.touched + (if pr.2.1 then 1 else 0)
      changedLinks := st.changedLinks + pr.2.2.length
      rows := st.rows ++ pr.2.2
      outRecs := st.outRecs ++ [pr.1] }) ⟨0, 0, 0, [], []⟩

/-- The fixed CSV header row. -/
def headerRow : List Str := ["record_001".data, "original_856u".data, "updated_856u".data]

structure RunResult where
  st : RunState
  csvContent : Option (List (List Str))
  csvWarned : Bool
deriving Repr

/-- `process_file` after the record loop: the CSV step.  `csvConfigured`
models a non-empty `csv_path`; `csvWriteOk` models whether the external
file write succeeds (a failed write is caught and only logs a warning). -/
def process_file (recs : List MarcRecord) (csvConfigured : Bool) (csvWriteOk : Bool) :
    RunResult :=
  let st := processRecords recs
  if csvConfigured = true ∧ st.rows ≠ [] then
    if csvWriteOk then
      ⟨st, some (headerRow :: st.rows.map (fun r => [r.1, r.2.1, r.2.2])), false⟩
    else ⟨st, none, true⟩
  else ⟨st, none, false⟩

/-- Number of link values of a record that the Normalizer changes
(the values of `u` subfields of `856` fields with `changed=true`). -/
def recLinkValues (rec : MarcRecord) : List Str :=
  ((rec.fields.filter (fun f => decide (f.tag = "856".data))).map
    (getSubfields "u".data)).flatten

def recChangedCount (rec : MarcRecord) : Nat :=
  (recLinkValues rec |>.filter (fun v => (fix_ezproxy_url v).2)).length

/-- The suffix of a string after its last `/` (the whole string if none). -/
def afterLastSlash (s : Str) : Str :=
  (s.reverse.takeWhile (fun x => decide (x ≠ '/'))).reverse

/-! ## The quote/unquote round trip -/

theorem toNat_ofNat_valid (n : Nat) (h : n.isValidChar) : (Char.ofNat n).toNat = n := by
  unfold Char.ofNat
  rw [dif_pos h]
  unfold Char.ofNatAux Char.toNat
  simp [UInt32.toNat]

theorem toNat_ofNat_small (n : Nat) (h : n < 55296) : (Char.ofNat n).toNat = n :=
  toNat_ofNat_valid n (Or.inl h)

theorem hexVal_hexDigitUpper : ∀ n < 16, hexVal (hexDigitUpper n) = n ∧
    isHexDigitChar (hexDigitUpper n) = true := by
  decide

theorem char_toNat_lt (c : Char) : c.toNat < 1114112 := by
  rcases c.valid with h | h
  · exact Nat.lt_trans h (by norm_num)
  · exact h.2

theorem char_not_surrogate (c : Char) : c.toNat < 55296 ∨ 57343 < c.toNat := by
  rcases c.valid with h | h
  · exact Or.inl h
  · exact Or.inr h.1

theorem utf8Run_inl_none (b : Nat) (ts : List Tok) :
    utf8Run none (Sum.inl b :: ts) = (utf8StartByte b).1 ++ utf8Run (utf8StartByte b).2 ts := rfl

theorem utf8Run_inl_some (p : Utf8Pending) (b : Nat) (ts : List Tok) :
    utf8Run (some p) (Sum.inl b :: ts) = (utf8ContByte p b).1 ++ utf8Run (utf8ContByte p b).2 ts := rfl

theorem utf8ContByte_mid (a k : Nat) (b : Nat) (hb : 128 ≤ b ∧ b < 192) (hk : k ≠ 1) :
    utf8ContByte (a, k, 128, 192) b = ([], some (a * 64 + (b - 128), k - 1, 128, 192)) := by
  unfold utf8ContByte
  rw [if_pos (show (128:Nat) ≤ b ∧ b < 192 from hb), if_neg (show ¬((a, k, (128:Nat), (192:Nat)).2.1 = 1) from hk)]

theorem utf8ContByte_last (a : Nat) (b : Nat) (hb : 128 ≤ b ∧ b < 192) :
    utf8ContByte (a, 1, 128, 192) b = ([Char.ofNat (a * 64 + (b - 128))], none) := by
  unfold utf8ContByte
  rw [if_pos (show (128:Nat) ≤ b ∧ b < 192 from hb), if_pos rfl]

/-- Decoding the UTF-8 encoding of one character consumes exactly its bytes. -/
theorem utf8Run_encChar (c : Char) (ts : List Tok) :
    utf8Run none ((utf8EncodeNat c.toNat).map Sum.inl ++ ts) = c :: utf8Run none ts := by
  have hlt : c.toNat < 1114112 := char_toNat_lt c
  have hsur : c.toNat < 55296 ∨ 57343 < c.toNat := char_not_surrogate c
  have hofn : Char.ofNat c.toNat = c := Char.ofNat_toNat c
  set n := c.toNat with hn
  by_cases h1 : n < 128
  · rw [utf8EncodeNat, if_pos h1]
    simp only [List.map_cons, List.map_nil, List.cons_append, List.nil_append]
    rw [utf8Run_inl_none]
    have hs : utf8StartByte n = ([Char.ofNat n], none) := by
      unfold utf8StartByte
      rw [if_pos h1]
    rw [hs, hofn]
    rfl
  · by_cases h2 : n < 2048
    · rw [utf8EncodeNat, if_neg h1, if_pos h2]
      simp only [List.map_cons, List.map_nil, List.cons_append, List.nil_append]
      rw [utf8Run_inl_none]
      have hs1 : utf8StartByte (192 + n / 64) = ([], some (n / 64, 1, 128, 192)) := by
        unfold utf8StartByte
        rw [if_neg (by omega), if_neg (by omega), if_pos (by omega)]
        have h : 192 + n / 64 - 192 = n / 64 := by omega
        rw [h]
      rw [hs1]
      simp only [List.nil_append]
      rw [utf8Run_inl_some, utf8ContByte_last _ _ (by omega)]
      have hval : n / 64 * 64 + (128 + n % 64 - 128) = n := by omega
      rw [hval, hofn]
      rfl
    · by_cases h3 : n < 65536
      · rw [utf8EncodeNat, if_neg h1, if_neg h2, if_pos h3]
        simp only [List.map_cons, List.map_nil, List.cons_append, List.nil_append]
        rw [utf8Run_inl_none]
        have hs1 : utf8StartByte (224 + n / 4096) =
            ([], some (n / 4096, 2, cont2Lo (224 + n / 4096), cont2Hi (224 + n / 4096))) := by
          unfold utf8StartByte
          rw [if_neg (by omega), if_neg (by omega), if_neg (by omega), if_pos (by omega)]
          have h : 224 + n / 4096 - 224 = n / 4096 := by omega
          rw [h]
        rw [hs1]
        simp only [List.nil_append]
        rw [utf8Run_inl_some]
        have hcond : cont2Lo (224 + n / 4096) ≤ 128 + n / 64 % 64 ∧
            128 + n / 64 % 64 < cont2Hi (224 + n / 4096) := by
          unfold cont2Lo cont2Hi
          by_cases hA : 224 + n / 4096 = 224
          · rw [if_pos hA, if_neg (by omega), if_neg (by omega)]
            exact ⟨by omega, by omega⟩
          · by_cases hB : 224 + n / 4096 = 237
            · have hns : n < 55296 := by
                rcases hsur with h | h
                · exact h
                · omega
              rw [if_neg hA, if_neg (by omega), if_pos hB]
              exact ⟨by omega, by omega⟩
            · rw [if_neg hA, if_neg (by omega), if_neg hB, if_neg (by omega)]
              exact ⟨by omega, by omega⟩
        have hstep2 : utf8ContByte (n / 4096, 2, cont2Lo (224 + n / 4096),
            cont2Hi (224 + n / 4096)) (128 + n / 64 % 64) =
            ([], some (n / 64, 1, 128, 192)) := by
          unfold utf8ContByte
          rw [if_pos (show cont2Lo (224 + n / 4096) ≤ 128 + n / 64 % 64 ∧
              128 + n / 64 % 64 < cont2Hi (224 + n / 4096) from hcond)]
          rw [if_neg (show ¬((n / 4096, 2, cont2Lo (224 + n / 4096),
              cont2Hi (224 + n / 4096)).2.1 = 1) from by norm_num)]
          have h : n / 4096 * 64 + (128 + n / 64 % 64 - 128) = n / 64 := by omega
          rw [h]
          norm_num
        rw [hstep2]
        simp only [List.nil_append]
        rw [utf8Run_inl_some, utf8ContByte_last _ _ (by omega)]
        have hval : n / 64 * 64 + (128 + n % 64 - 128) = n := by omega
        rw [hval, hofn]
        rfl
      · rw [utf8EncodeNat, if_neg h1, if_neg h2, if_neg h3]
        simp only [List.map_cons, List.map_nil, List.cons_append, List.nil_append]
        rw [utf8Run_inl_none]
        have hs1 : utf8StartByte (240 + n / 262144) =
            ([], some (n / 262144, 3, cont2Lo (240 + n / 262144),
              cont2Hi (240 + n / 262144))) := by
          unfold utf8StartByte
          rw [if_neg (by omega), if_neg (by omega), if_neg (by omega), if_neg (by omega),
            if_pos (by omega)]
          have h : 240 + n / 262144 - 240 = n / 262144 := by omega
          rw [h]
        rw [hs1]
        simp only [List.nil_append]
        rw [utf8Run_inl_some]
        have hcond : cont2Lo (240 + n / 262144) ≤ 128 + n / 4096 % 64 ∧
            128 + n / 4096 % 64 < cont2Hi (240 + n / 262144) := by
          unfold cont2Lo cont2Hi
          by_cases hA : 240 + n / 262144 = 240
          · rw [if_neg (by omega), if_pos hA, if_neg (by omega), if_neg (by omega)]
            exact ⟨by omega, by omega⟩
          · by_cases hB : 240 + n / 262144 = 244
            · rw [if_neg (by omega), if_neg hA, if_neg (by omega), if_pos hB]
              exact ⟨by omega, by omega⟩
            · rw [if_neg (by omega), if_neg hA, if_neg (by omega), if_neg hB]
              exact ⟨by omega, by omega⟩
        have hstep2 : utf8ContByte (n / 262144, 3, cont2Lo (240 + n / 262144),
            cont2Hi (240 + n / 262144)) (128 + n / 4096 % 64) =
            ([], some (n / 4096, 2, 128, 192)) := by
          unfold utf8ContByte
          rw [if_pos (show cont2Lo (240 + n / 262144) ≤ 128 + n / 4096 % 64 ∧
              128 + n / 4096 % 64 < cont2Hi (240 + n / 262144) from hcond)]
          rw [if_neg (show ¬((n / 262144, 3, cont2Lo (240 + n / 262144),
              cont2Hi (240 + n / 262144)).2.1 = 1) from by norm_num)]
          have h : n / 262144 * 64 + (128 + n / 4096 % 64 - 128) = n / 4096 := by omega
          rw [h]
          norm_num
        rw [hstep2]
        simp only [List.nil_append]
        rw [utf8Run_inl_some, utf8ContByte_mid _ _ _ (by omega) (by omega)]
        have h : n / 4096 * 64 + (128 + n / 64 % 64 - 128) = n / 64 := by omega
        have h2 : (2 : Nat) - 1 = 1 := by norm_num
        rw [h, h2]
        simp only [List.nil_append]
        rw [utf8Run_inl_some, utf8ContByte_last _ _ (by omega)]
        have hval : n / 64 * 64 + (128 + n % 64 - 128) = n := by omega
        rw [hval, hofn]
        rfl

/-- Decoding the UTF-8 encoding of a string consumes exactly its bytes. -/
theorem utf8Run_encode (s : Str) (ts : List Tok) :
    utf8Run none ((utf8Encode s).map Sum.inl ++ ts) = s ++ utf8Run none ts := by
  induction s with
  | nil => rfl
  | cons c rest ih =>
    show utf8Run none (((utf8EncodeNat c.toNat ++ utf8Encode rest).map Sum.inl) ++ ts) = _
    rw [List.map_append, List.append_assoc, utf8Run_encChar, ih]
    rfl

theorem alwaysSafeByte_props {b : Nat} (h : alwaysSafeByte b = true) : b < 128 ∧ b ≠ 37 := by
  simp only [alwaysSafeByte, decide_eq_true_eq] at h
  omega

theorem unqTokens_nonpct (c : Char) (rest : Str) (h : c ≠ '%') :
    unqTokens (c :: rest) =
      (if c.toNat < 128 then Sum.inl c.toNat else Sum.inr c) :: unqTokens rest := by
  unfold unqTokens
  split
  · rename_i heq
    exact absurd heq (List.cons_ne_nil c rest)
  · rename_i c1 c2 r heq
    rw [List.cons.injEq] at heq
    exact absurd heq.1 h
  · rename_i r hcond heq
    rw [List.cons.injEq] at heq
    exact absurd heq.1 h
  · rename_i heq
    injection heq with h1 h2
    subst h1
    subst h2
    by_cases h128 : c.toNat < 128
    · rw [if_pos h128, if_pos h128]
      exact congrArg (List.cons (Sum.inl c.toNat)) (unqTokens.eq_def rest)
    · rw [if_neg h128, if_neg h128]
      exact congrArg (List.cons (Sum.inr c)) (unqTokens.eq_def rest)

theorem quoteByte_safe {b : Nat} (h : alwaysSafeByte b = true) :
    quoteByte [] b = [Char.ofNat b] := by
  unfold quoteByte
  rw [if_pos (by simp [h])]

theorem quoteByte_esc {b : Nat} (h : ¬alwaysSafeByte b = true) :
    quoteByte [] b = ['%', hexDigitUpper (b / 16), hexDigitUpper (b % 16)] := by
  unfold quoteByte
  rw [if_neg (by simp [h])]

/-- Tokenizing the quoted form of a byte list recovers exactly those bytes. -/
theorem unqTokens_quote_bytes (bs : List Nat) (h : ∀ b ∈ bs, b < 256) :
    unqTokens (bs.flatMap (quoteByte [])) = bs.map Sum.inl := by
  induction bs with
  | nil => rfl
  | cons b rest ih =>
    have hb : b < 256 := h b (List.mem_cons_self b rest)
    have hrest : ∀ x ∈ rest, x < 256 := fun x hx => h x (List.mem_cons_of_mem b hx)
    rw [List.flatMap_cons, List.map_cons]
    by_cases hsafe : alwaysSafeByte b = true
    · obtain ⟨hlt, hne⟩ := alwaysSafeByte_props hsafe
      have ht : (Char.ofNat b).toNat = b := toNat_ofNat_small b (by omega)
      rw [quoteByte_safe hsafe, List.cons_append, List.nil_append]
      rw [unqTokens_nonpct _ _ (fun he => hne (by rw [← ht, he]; rfl))]
      rw [ih hrest]
      congr 1
      rw [if_pos (by rw [ht]; exact hlt), ht]
    · rw [quoteByte_esc hsafe, List.cons_append, List.cons_append, List.cons_append,
        List.nil_append]
      have e1 : isHexDigitChar (hexDigitUpper (b / 16)) = true :=
        (hexVal_hexDigitUpper (b / 16) (by omega)).2
      have e2 : isHexDigitChar (hexDigitUpper (b % 16)) = true :=
        (hexVal_hexDigitUpper (b % 16) (by omega)).2
      show (if isHexDigitChar (hexDigitUpper (b / 16)) && isHexDigitChar (hexDigitUpper (b % 16))
          then Sum.inl (hexVal (hexDigitUpper (b / 16)) * 16 + hexVal (hexDigitUpper (b % 16))) ::
            unqTokens (rest.flatMap (quoteByte []))
          else Sum.inl 37 :: unqTokens (hexDigitUpper (b / 16) :: hexDigitUpper (b % 16) ::
            rest.flatMap (quoteByte []))) = _
      rw [e1, e2]
      rw [if_pos (show (true && true) = true from rfl)]
      rw [(hexVal_hexDigitUpper (b / 16) (by omega)).1, (hexVal_hexDigitUpper (b % 16) (by omega)).1]
      have hbv : b / 16 * 16 + b % 16 = b := by omega
      rw [hbv, ih hrest]

theorem utf8EncodeNat_lt {n : Nat} (hn : n < 1114112) : ∀ b ∈ utf8EncodeNat n, b < 256 := by
  intro b hb
  unfold utf8EncodeNat at hb
  by_cases h1 : n < 128
  · rw [if_pos h1] at hb
    simp only [List.mem_singleton] at hb
    omega
  · by_cases h2 : n < 2048
    · rw [if_neg h1, if_pos h2] at hb
      simp only [List.mem_cons, List.not_mem_nil, or_false] at hb
      rcases hb with hb | hb <;> omega
    · by_cases h3 : n < 65536
      · rw [if_neg h1, if_neg h2, if_pos h3] at hb
        simp only [List.mem_cons, List.not_mem_nil, or_false] at hb
        rcases hb with hb | hb | hb <;> omega
      · rw [if_neg h1, if_neg h2, if_neg h3] at hb
        simp only [List.mem_cons, List.not_mem_nil, or_false] at hb
        rcases hb with hb | hb | hb | hb <;> omega

theorem utf8Encode_lt (s : Str) : ∀ b ∈ utf8Encode s, b < 256 := by
  intro b hb
  unfold utf8Encode at hb
  rw [List.mem_flatMap] at hb
  rcases hb with ⟨c, _, hbc⟩
  exact utf8EncodeNat_lt (char_toNat_lt c) b hbc

/-- `unquote` inverts `quote` with `safe=''`. -/
theorem unquote_quote (s : Str) : unquote (quote [] s) = s := by
  unfold unquote quote utf8DecodeT
  rw [unqTokens_quote_bytes (utf8Encode s) (utf8Encode_lt s)]
  have h := utf8Run_encode s []
  rw [List.append_nil] at h
  rw [h, show utf8Run none ([] : List Tok) = [] from rfl, List.append_nil]


/-! ## parse_qsl inverts urlencode -/

/-- Characters that can appear in the output of `quote` with `safe=''`:
ASCII, and none of the URL-structural characters. -/
def goodQChar (c : Char) : Prop :=
  c.toNat < 128 ∧ c.toNat ≠ 43 ∧ c.toNat ≠ 38 ∧ c.toNat ≠ 61 ∧ c.toNat ≠ 35 ∧
    c.toNat ≠ 63 ∧ c.toNat ≠ 58 ∧ c.toNat ≠ 59 ∧ c.toNat ≠ 47 ∧ c.toNat ≠ 9 ∧
    c.toNat ≠ 13 ∧ c.toNat ≠ 10

instance (c : Char) : Decidable (goodQChar c) := by
  unfold goodQChar
  infer_instance

theorem goodQChar_hexDigitUpper : ∀ n < 16, goodQChar (hexDigitUpper n) := by
  decide

theorem quote_good (s : Str) : ∀ c ∈ quote [] s, goodQChar c := by
  intro c hc
  unfold quote at hc
  rw [List.mem_flatMap] at hc
  rcases hc with ⟨b, hb, hcb⟩
  have hb256 : b < 256 := utf8Encode_lt s b hb
  by_cases hsafe : alwaysSafeByte b = true
  · rw [quoteByte_safe hsafe] at hcb
    simp only [List.mem_singleton] at hcb
    subst hcb
    have hprops : (65 ≤ b ∧ b ≤ 90) ∨ (97 ≤ b ∧ b ≤ 122) ∨ (48 ≤ b ∧ b ≤ 57) ∨
        b = 95 ∨ b = 46 ∨ b = 45 ∨ b = 126 := by
      simpa [alwaysSafeByte] using hsafe
    have ht : (Char.ofNat b).toNat = b := toNat_ofNat_small b (by omega)
    unfold goodQChar
    rw [ht]
    omega
  · rw [quoteByte_esc hsafe] at hcb
    simp only [List.mem_cons, List.not_mem_nil, or_false] at hcb
    rcases hcb with hcb | hcb | hcb
    · subst hcb
      decide
    · subst hcb
      exact goodQChar_hexDigitUpper (b / 16) (by omega)
    · subst hcb
      exact goodQChar_hexDigitUpper (b % 16) (by omega)

theorem plusToSpace_id (s : Str) (h : ∀ c ∈ s, c ≠ '+') : plusToSpace s = s := by
  unfold plusToSpace
  rw [List.map_congr_left (fun c hc => if_neg (h c hc))]
  exact List.map_id' s

theorem splitChar_cons (sep c : Char) (rest : Str) :
    splitChar sep (c :: rest) =
      if c = sep then [] :: splitChar sep rest
      else
        match splitChar sep rest with
        | [] => [[c]]
        | h :: t => (c :: h) :: t := rfl

theorem splitChar_no (sep : Char) (s : Str) (h : sep ∉ s) : splitChar sep s = [s] := by
  induction s with
  | nil => rfl
  | cons c rest ih =>
    rw [splitChar_cons,
      if_neg (show ¬(c = sep) by
        intro he
        exact h (he ▸ List.mem_cons_self c rest)),
      ih (fun hm => h (List.mem_cons_of_mem c hm))]

theorem splitChar_app (sep : Char) (x y : Str) (hx : sep ∉ x) :
    splitChar sep (x ++ sep :: y) = x :: splitChar sep y := by
  induction x with
  | nil =>
    show splitChar sep (sep :: y) = [] :: splitChar sep y
    rw [splitChar_cons, if_pos rfl]
  | cons c rest ih =>
    have hc : ¬(c = sep) := by
      intro he
      exact hx (he ▸ List.mem_cons_self c rest)
    show splitChar sep (c :: (rest ++ sep :: y)) = (c :: rest) :: splitChar sep y
    rw [splitChar_cons, if_neg hc, ih (fun hm => hx (List.mem_cons_of_mem c hm))]

theorem splitChar_joinSep (sep : Char) :
    ∀ (ps : List Str), ps ≠ [] → (∀ p ∈ ps, sep ∉ p) →
      splitChar sep (joinSep sep ps) = ps := by
  intro ps
  induction ps with
  | nil => intro h _; exact absurd rfl h
  | cons x t ih =>
    intro _ hmem
    rcases t with _ | ⟨y, t2⟩
    · show splitChar sep (x ++ (if ([] : List Str) = [] then [] else _)) = [x]
      rw [if_pos rfl, List.append_nil]
      exact splitChar_no sep x (hmem x (List.mem_cons_self x []))
    · show splitChar sep (x ++ (if (y :: t2 : List Str) = [] then []
        else sep :: joinSep sep (y :: t2))) = x :: (y :: t2)
      rw [if_neg (List.cons_ne_nil y t2)]
      rw [splitChar_app sep x _ (hmem x (List.mem_cons_self x _))]
      rw [ih (List.cons_ne_nil y t2) (fun p hp => hmem p (List.mem_cons_of_mem x hp))]

theorem takeWhile_app_stop (p : Char → Bool) (x : Str) (d : Char) (y : Str)
    (hx : ∀ c ∈ x, p c = true) (hd : p d = false) :
    (x ++ d :: y).takeWhile p = x := by
  rw [List.takeWhile_append_of_pos hx, List.takeWhile_cons_of_neg (by rw [hd]; exact Bool.false_ne_true), List.append_nil]

theorem drop_app_succ (x : Str) (d : Char) (y : Str) :
    (x ++ d :: y).drop (x.length + 1) = y := by
  have h : x ++ d :: y = (x ++ [d]) ++ y := by simp
  rw [h, show x.length + 1 = (x ++ [d]).length by simp]
  exact List.drop_left (x ++ [d]) y

theorem splitEqOnce_app (k v : Str) (hk : '=' ∉ k) :
    splitEqOnce (k ++ '=' :: v) = some (k, v) := by
  unfold splitEqOnce
  have hmem : '=' ∈ k ++ '=' :: v := List.mem_append_right k (List.mem_cons_self '=' v)
  rw [if_pos hmem]
  have htw : (k ++ '=' :: v).takeWhile (fun c => decide (c ≠ '=')) = k :=
    takeWhile_app_stop _ k '=' v
      (fun c hc => decide_eq_true (fun he => hk (he ▸ hc))) (by decide)
  rw [htw, drop_app_succ]

/-- One encoded piece of `urlencode`. -/
def pieceOf (kv : Str × Str) : Str := quote [] kv.1 ++ '=' :: quote [] kv.2

theorem amp_not_mem_pieceOf (kv : Str × Str) : '&' ∉ pieceOf kv := by
  intro hm
  unfold pieceOf at hm
  rcases List.mem_append.1 hm with hm | hm
  · exact (quote_good kv.1 '&' hm).2.2.1 rfl
  · rcases List.mem_cons.1 hm with hm | hm
    · exact absurd hm (by decide)
    · exact (quote_good kv.2 '&' hm).2.2.1 rfl

theorem qslStep_piece (kv : Str × Str) (acc : List (Str × Str)) :
    qslStep true (pieceOf kv) acc = kv :: acc := by
  unfold qslStep
  have hne : pieceOf kv ≠ [] := by
    intro he
    have hm : '=' ∈ pieceOf kv := List.mem_append_right _ (List.mem_cons_self '=' _)
    rw [he] at hm
    exact List.not_mem_nil '=' hm
  rw [if_neg hne]
  show (match splitEqOnce (pieceOf kv) with
    | some kv2 => if kv2.2 ≠ [] ∨ (true : Bool) = true then
        (unquote (plusToSpace kv2.1), unquote (plusToSpace kv2.2)) :: acc
      else acc
    | none => if (true : Bool) = true then
        (unquote (plusToSpace (pieceOf kv)), unquote (plusToSpace [])) :: acc
      else acc) = kv :: acc
  rw [show splitEqOnce (pieceOf kv) = some (quote [] kv.1, quote [] kv.2) from
    splitEqOnce_app _ _ (fun hm => (quote_good kv.1 '=' hm).2.2.2.1 rfl)]
  show (if quote [] kv.2 ≠ [] ∨ (true : Bool) = true then
      (unquote (plusToSpace (quote [] kv.1)), unquote (plusToSpace (quote [] kv.2))) :: acc
    else acc) = kv :: acc
  rw [if_pos (Or.inr rfl)]
  have hq1 : ∀ c ∈ quote [] kv.1, c ≠ '+' :=
    fun c hc he => (quote_good kv.1 c hc).2.1 (by rw [he]; rfl)
  have hq2 : ∀ c ∈ quote [] kv.2, c ≠ '+' :=
    fun c hc he => (quote_good kv.2 c hc).2.1 (by rw [he]; rfl)
  rw [plusToSpace_id _ hq1, plusToSpace_id _ hq2, unquote_quote, unquote_quote]

theorem foldr_qslStep_pieces :
    ∀ l : List (Str × Str), (l.map pieceOf).foldr (qslStep true) [] = l := by
  intro l
  induction l with
  | nil => rfl
  | cons kv t ih =>
    rw [List.map_cons, List.foldr_cons, ih, qslStep_piece]

/-- `parse_qsl` with `keep_blank_values=True` inverts `urlencode`. -/
theorem parse_qsl_urlencode (ps : List (Str × Str)) :
    parse_qsl true (urlencode ps) = ps := by
  rcases ps with _ | ⟨kv0, rest⟩
  · rfl
  · unfold parse_qsl urlencode
    have hmem0 : '=' ∈ joinSep '&' (((kv0 :: rest)).map (fun kv =>
        quote [] kv.1 ++ '=' :: quote [] kv.2)) := by
      show '=' ∈ (quote [] kv0.1 ++ '=' :: quote [] kv0.2) ++ _
      exact List.mem_append_left _ (List.mem_append_right _ (List.mem_cons_self '=' _))
    rw [if_neg (List.ne_nil_of_mem hmem0)]
    have hmap : ((kv0 :: rest)).map (fun kv => quote [] kv.1 ++ '=' :: quote [] kv.2) =
        ((kv0 :: rest)).map pieceOf := rfl
    rw [hmap]
    rw [splitChar_joinSep '&' ((kv0 :: rest).map pieceOf)
      (by simp) (by
        intro p hp
        rw [List.mem_map] at hp
        rcases hp with ⟨kv, _, hpe⟩
        exact hpe ▸ amp_not_mem_pieceOf kv)]
    exact foldr_qslStep_pieces (kv0 :: rest)

/-! ## Record Rewriter lemmas -/

theorem anyMapAux {α β : Type} (l : List α) (f : α → β) (p : β → Bool) :
    (l.map f).any p = l.any (fun a => p (f a)) := by
  induction l with
  | nil => rfl
  | cons a t ih => simp [List.any_cons, ih]

/-- Number of change rows a field contributes: one per changed value. -/
theorem processField_pairs_length (f : MarcField) :
    (processField f).2.2.length =
      ((getSubfields "u".data f).filter (fun v => (fix_ezproxy_url v).2)).length := by
  unfold processField
  by_cases hs : getSubfields "u".data f = []
  · simp [hs]
  · rw [if_neg hs]
    simp only [List.filter_map, List.length_map]
    congr 1

/-- The `sub_changed_any` flag: set exactly when some value changed. -/
theorem processField_changed (f : MarcField) :
    (processField f).2.1 = (getSubfields "u".data f).any (fun v => (fix_ezproxy_url v).2) := by
  unfold processField
  by_cases hs : getSubfields "u".data f = []
  · simp [hs]
  · rw [if_neg hs]
    show ((getSubfields "u".data f).map (fun u => (u, fix_ezproxy_url u))).any
      (fun r => r.2.2) = _
    rw [anyMapAux]

/-- The per-field step used by `processRecord`. -/
def recFieldStep (f : MarcField) : MarcField × Bool × List (Str × Str) :=
  if f.tag = "856".data then processField f else (f, false, [])

theorem processRecord_parts (rec : MarcRecord) :
    (processRecord rec).2.2 =
      ((rec.fields.map recFieldStep).flatMap (fun r => r.2.2)).map
        (fun p => (pyStrip (rec.f001.getD []), p.1, p.2)) ∧
      (processRecord rec).2.1 = (rec.fields.map recFieldStep).any (fun r => r.2.1) := by
  exact ⟨rfl, rfl⟩

/-- Per-record change rows count equals the number of changed link values. -/
theorem processRecord_pairs_length (rec : MarcRecord) :
    (processRecord rec).2.2.length = recChangedCount rec := by
  rw [(processRecord_parts rec).1]
  unfold recChangedCount recLinkValues
  rw [List.length_map]
  induction rec.fields with
  | nil => rfl
  | cons f fs ih =>
    by_cases ht : f.tag = "856".data
    · rw [List.map_cons, List.flatMap_cons, List.length_append, List.filter_cons,
        if_pos (show decide (f.tag = "856".data) = true by simpa using ht),
        List.map_cons, List.flatten_cons, List.filter_append, List.length_append, ih]
      have : recFieldStep f = processField f := by
        unfold recFieldStep
        rw [if_pos ht]
      rw [this, processField_pairs_length]
    · rw [List.map_cons, List.flatMap_cons, List.length_append, List.filter_cons,
        if_neg (show ¬decide (f.tag = "856".data) = true by simpa using ht)]
      have : recFieldStep f = (f, false, []) := by
        unfold recFieldStep
        rw [if_neg ht]
      rw [this]
      simpa using ih

/-- The `rec_changed` flag: set exactly when some link value changed. -/
theorem any_eq_decide_filter {α : Type} (l : List α) (p : α → Bool) :
    l.any p = decide (0 < (l.filter p).length) := by
  induction l with
  | nil => rfl
  | cons a t ih =>
    rw [List.any_cons, List.filter_cons]
    cases hpa : p a
    · rw [if_neg (by simp [hpa])]
      simp only [Bool.false_or]
      exact ih
    · rw [if_pos (by simp [hpa])]
      simp

theorem decide_pos_add_or (a b : Nat) :
    (decide (0 < a) || decide (0 < b)) = decide (0 < a + b) := by
  by_cases ha : 0 < a <;> by_cases hb : 0 < b <;> simp [ha, hb]

theorem processRecord_changed (rec : MarcRecord) :
    (processRecord rec).2.1 = decide (0 < recChangedCount rec) := by
  rw [(processRecord_parts rec).2]
  unfold recChangedCount recLinkValues
  induction rec.fields with
  | nil => rfl
  | cons f fs ih =>
    rw [List.map_cons, List.any_cons, List.filter_cons]
    by_cases ht : f.tag = "856".data
    · rw [if_pos (show decide (f.tag = "856".data) = true by simpa using ht),
        List.map_cons, List.flatten_cons, List.filter_append, List.length_append, ih]
      have hf : recFieldStep f = processField f := by
        unfold recFieldStep
        rw [if_pos ht]
      rw [hf, processField_changed, any_eq_decide_filter, decide_pos_add_or]
    · rw [if_neg (show ¬decide (f.tag = "856".data) = true by simpa using ht)]
      have hf : recFieldStep f = (f, false, []) := by
        unfold recFieldStep
        rw [if_neg ht]
      rw [hf, ih]
      simp

/-- The loop of `process_file` as a fold, with an arbitrary starting state. -/
theorem processRecords_foldl (recs : List MarcRecord) (st0 : RunState) :
    recs.foldl (fun st rec =>
        let pr := processRecord rec
        { total := st.total + 1
          touched := st.touched + (if pr.2.1 then 1 else 0)
          changedLinks := st.changedLinks + pr.2.2.length
          rows := st.rows ++ pr.2.2
          outRecs := st.outRecs ++ [pr.1] }) st0 =
      { total := st0.total + recs.length
        touched := st0.touched + recs.countP (fun r => (processRecord r).2.1)
        changedLinks := st0.changedLinks + (recs.map (fun r => (processRecord r).2.2.length)).sum
        rows := st0.rows ++ recs.flatMap (fun r => (processRecord r).2.2)
        outRecs := st0.outRecs ++ recs.map (fun r => (processRecord r).1) } := by
  induction recs generalizing st0 with
  | nil => simp
  | cons r rs ih =>
    simp only [List.foldl_cons, ih, List.length_cons, List.countP_cons, List.map_cons,
      List.sum_cons, List.flatMap_cons, RunState.mk.injEq]
    refine ⟨by omega, by omega, by omega, by simp, by simp⟩

theorem processRecords_eq (recs : List MarcRecord) :
    processRecords recs =
      { total := recs.length
        touched := recs.countP (fun r => (processRecord r).2.1)
        changedLinks := (recs.map (fun r => (processRecord r).2.2.length)).sum
        rows := recs.flatMap (fun r => (processRecord r).2.2)
        outRecs := recs.map (fun r => (processRecord r).1) } := by
  unfold processRecords
  rw [processRecords_foldl]
  simp

/-! ## Claim theorems: the Record Rewriter -/

/-- C7: over any record list, the total counter equals the number of records,
the touched counter counts the records with at least one changed link value
(at most once per record), and the changed-link counter adds up the changed
values; per record, the change rows are one per changed value and the record
is touched exactly when that count is positive. -/
theorem process_counters (recs : List MarcRecord) :
    (processRecords recs).total = recs.length ∧
      (processRecords recs).touched =
        recs.countP (fun r => decide (0 < recChangedCount r)) ∧
      (processRecords recs).changedLinks = (recs.map recChangedCount).sum ∧
      ∀ rec : MarcRecord, (processRecord rec).2.2.length = recChangedCount rec ∧
        (processRecord rec).2.1 = decide (0 < recChangedCount rec) := by
  rw [processRecords_eq]
  refine ⟨rfl, ?_, ?_, fun rec => ⟨processRecord_pairs_length rec, processRecord_changed rec⟩⟩
  · exact List.countP_congr (fun r _ => by rw [processRecord_changed r])
  · exact congrArg List.sum (List.map_congr_left (fun r _ => processRecord_pairs_length r))

/-- C10: at every point of a run (i.e. for every list of records processed so
far), the changed-link counter equals the number of accumulated change-log
rows. -/
theorem changed_links_eq_rows (recs : List MarcRecord) :
    (processRecords recs).changedLinks = (processRecords recs).rows.length := by
  rw [processRecords_eq]
  simp only [List.length_flatMap]
  rfl

/-- C8: the CSV content is produced exactly when a change-log path is
configured, at least one change row exists, and the external write succeeds;
its content is the fixed header followed by one row per changed value; and
the run's counters and rows are the same whether or not the CSV write
succeeds (a failure only sets the warning flag). -/
theorem process_csv (recs : List MarcRecord) (cfg ok : Bool) :
    (process_file recs cfg ok).st = processRecords recs ∧
      (process_file recs cfg ok).csvContent =
        (if cfg = true ∧ (processRecords recs).rows ≠ [] ∧ ok = true then
          some (headerRow :: (processRecords recs).rows.map (fun r => [r.1, r.2.1, r.2.2]))
        else none) ∧
      (process_file recs cfg ok).csvWarned =
        (cfg && !(processRecords recs).rows.isEmpty && !ok) := by
  rcases Bool.eq_false_or_eq_true cfg with hc | hc <;>
    rcases Bool.eq_false_or_eq_true ok with ho | ho <;>
      by_cases hr : (processRecords recs).rows = [] <;>
        simp [process_file, hc, ho, hr, List.isEmpty_iff]

/-! ## Unfolding lemmas for the four outcomes of the Normalizer -/

theorem fix_parse_none {u : Str} (h : urlparse u = none) :
    fix_ezproxy_url u = (u, false) := by
  simp [fix_ezproxy_url, h]

theorem fix_guard {u : Str} {p : ParseResult} (hp : urlparse u = some p)
    (hg : hasSub "/login".data p.path = false ∨ p.query = []) :
    fix_ezproxy_url u = (u, false) := by
  simp only [fix_ezproxy_url, hp]
  rw [if_pos hg]

theorem fix_no_target {u : Str} {p : ParseResult} (hp : urlparse u = some p)
    (hg : ¬(hasSub "/login".data p.path = false ∨ p.query = []))
    (hs : (targetScan (parse_qsl true p.query)).1 = none) :
    fix_ezproxy_url u = (u, false) := by
  simp only [fix_ezproxy_url, hp]
  rw [if_neg hg]
  simp only [hs]

theorem fix_apply {u : Str} {p : ParseResult} {tv : Str} (hp : urlparse u = some p)
    (hg : ¬(hasSub "/login".data p.path = false ∨ p.query = []))
    (hs : (targetScan (parse_qsl true p.query)).1 = some tv) :
    fix_ezproxy_url u =
      (urlunparse { p with query := urlencode (newParamsOf (parse_qsl true p.query) tv) },
        decide (urlunparse
            { p with query := urlencode (newParamsOf (parse_qsl true p.query) tv) } ≠ u) ||
          (targetScan (parse_qsl true p.query)).2.1) := by
  simp only [fix_ezproxy_url, hp]
  rw [if_neg hg]
  simp only [hs]

/-- The scanning fold leaves any state unchanged on a pair list with no
target keys. -/
theorem targetScan_foldl_no_target :
    ∀ (ps : List (Str × Str)),
      (∀ kv ∈ ps, kv.1 ≠ "url".data ∧ kv.1 ≠ "qurl".data) →
      ∀ st : Option Str × Bool × Bool,
        ps.foldl (fun st kv =>
          if kv.1 = "url".data ∧ st.1 = none then (some kv.2, true, st.2.2)
          else if kv.1 = "qurl".data ∧ st.1 = none then (some kv.2, st.2.1, true)
          else st) st = st := by
  intro ps
  induction ps with
  | nil => intro _ _; rfl
  | cons kv tl ih =>
    intro h st
    have hkv := h kv (List.mem_cons_self kv tl)
    simp only [List.foldl_cons]
    rw [if_neg (fun hc => hkv.1 hc.1), if_neg (fun hc => hkv.2 hc.1)]
    exact ih (fun x hx => h x (List.mem_cons_of_mem kv hx)) st

theorem targetScan_of_no_target {ps : List (Str × Str)}
    (h : ∀ kv ∈ ps, kv.1 ≠ "url".data ∧ kv.1 ≠ "qurl".data) :
    (targetScan ps).1 = none := by
  unfold targetScan
  rw [targetScan_foldl_no_target ps h]

/-! ## Claim theorems: concrete examples -/

/-- C5: on `http://x.ezproxy.lib/login?foo=1&url=http://a.com&bar=2` the
Normalizer produces the query `foo=1&bar=2&qurl=http%3A%2F%2Fa.com` with
`changed = true`. -/
theorem normalize_example_three :
    fix_ezproxy_url "http://x.ezproxy.lib/login?foo=1&url=http://a.com&bar=2".data =
      ("http://x.ezproxy.lib/login?foo=1&bar=2&qurl=http%3A%2F%2Fa.com".data, true) := by
  decide

/-- C6 counterexample: on `http://x.ezproxy.lib/login?qurl=http://a.com` the
Normalizer does *not* return the input unchanged with `changed=false`: the
promoted value is re-encoded, the string differs, and `changed=true`. -/
theorem normalize_example_two_false :
    fix_ezproxy_url "http://x.ezproxy.lib/login?qurl=http://a.com".data =
        ("http://x.ezproxy.lib/login?qurl=http%3A%2F%2Fa.com".data, true) ∧
      "http://x.ezproxy.lib/login?qurl=http%3A%2F%2Fa.com".data ≠
        "http://x.ezproxy.lib/login?qurl=http://a.com".data := by
  decide

/-- C6 amended: with the `qurl` value already in canonical percent-encoded
form, `http://x.ezproxy.lib/login?qurl=http%3A%2F%2Fa.com` is returned
unchanged with `changed=false` (the `qurl`-only trigger sets no `had_url`
flag, and re-encoding is the identity here). -/
theorem normalize_example_two_amended :
    fix_ezproxy_url "http://x.ezproxy.lib/login?qurl=http%3A%2F%2Fa.com".data =
      ("http://x.ezproxy.lib/login?qurl=http%3A%2F%2Fa.com".data, false) := by
  decide

/-- C3 counterexample: the Normalizer is not idempotent on the result string.
A multiply percent-encoded promoted value is decoded one more level per
application, and with an empty netloc a run of slashes before the path
collapses on reassembly. -/
theorem normalize_not_idempotent :
    ((fix_ezproxy_url (fix_ezproxy_url "http://x/login?url=%252520".data).1).1 ≠
        (fix_ezproxy_url "http://x/login?url=%252520".data).1) ∧
      ((fix_ezproxy_url (fix_ezproxy_url "xyz://///a/login?url=b".data).1).1 ≠
        (fix_ezproxy_url "xyz://///a/login?url=b".data).1) := by
  decide

/-- C9: whenever the Normalizer reports `changed=false`, the returned string
is the input itself. -/
theorem unchanged_of_not_changed (u : Str) (h : (fix_ezproxy_url u).2 = false) :
    (fix_ezproxy_url u).1 = u := by
  rcases hp : urlparse u with _ | p
  · rw [fix_parse_none hp]
  · by_cases hg : hasSub "/login".data p.path = false ∨ p.query = []
    · rw [fix_guard hp hg]
    · rcases hs : (targetScan (parse_qsl true p.query)).1 with _ | tv
      · rw [fix_no_target hp hg hs]
      · rw [fix_apply hp hg hs] at h ⊢
        simp only [Bool.or_eq_false_iff, decide_eq_false_iff_not, not_not] at h
        exact h.1

/-- C9 witness: a URL without `/login` is reported unchanged, and indeed the
returned string is the input. -/
theorem unchanged_of_not_changed_app :
    (fix_ezproxy_url "http://a.com/x".data).1 = "http://a.com/x".data :=
  unchanged_of_not_changed "http://a.com/x".data (by decide)

/-- C2: when the parsed path has no `/login`, or the query is empty, or no
query pair has key `url` or `qurl`, the Normalizer returns the input
unchanged with `changed=false`. -/
theorem normalize_unchanged_not_applicable (u : Str) (p : ParseResult)
    (hp : urlparse u = some p)
    (h : hasSub "/login".data p.path = false ∨ p.query = [] ∨
      ∀ kv ∈ parse_qsl true p.query, kv.1 ≠ "url".data ∧ kv.1 ≠ "qurl".data) :
    fix_ezproxy_url u = (u, false) := by
  rcases h with h | h | h
  · exact fix_guard hp (Or.inl h)
  · exact fix_guard hp (Or.inr h)
  · by_cases hg : hasSub "/login".data p.path = false ∨ p.query = []
    · exact fix_guard hp hg
    · exact fix_no_target hp hg (targetScan_of_no_target h)

/-- C2 witness: Example 4 of the specification, `/other` instead of
`/login`. -/
theorem normalize_unchanged_not_applicable_app :
    fix_ezproxy_url "http://x.ezproxy.lib/other?url=http://a.com".data =
      ("http://x.ezproxy.lib/other?url=http://a.com".data, false) :=
  normalize_unchanged_not_applicable _
    ⟨"http".data, "x.ezproxy.lib".data, "/other".data, [], "url=http://a.com".data, []⟩
    (by decide) (Or.inl (by decide))


/-! ## The scan finds the first target pair -/

theorem targetScan_keep (ps : List (Str × Str)) (v : Str) (b1 b2 : Bool) :
    ps.foldl (fun st kv =>
      if kv.1 = "url".data ∧ st.1 = none then (some kv.2, true, st.2.2)
      else if kv.1 = "qurl".data ∧ st.1 = none then (some kv.2, st.2.1, true)
      else st) (some v, b1, b2) = (some v, b1, b2) := by
  induction ps with
  | nil => rfl
  | cons kv t ih =>
    rw [List.foldl_cons, if_neg (fun hc => by cases hc.2), if_neg (fun hc => by cases hc.2)]
    exact ih

theorem targetScan_find (ps : List (Str × Str)) :
    (targetScan ps).1 =
      (ps.find? (fun kv => decide (kv.1 = "url".data ∨ kv.1 = "qurl".data))).map
        (fun kv => kv.2) := by
  unfold targetScan
  suffices hgen : ∀ (l : List (Str × Str)) (b1 b2 : Bool),
      (l.foldl (fun st kv =>
        if kv.1 = "url".data ∧ st.1 = none then (some kv.2, true, st.2.2)
        else if kv.1 = "qurl".data ∧ st.1 = none then (some kv.2, st.2.1, true)
        else st) (none, b1, b2)).1 =
      (l.find? (fun kv => decide (kv.1 = "url".data ∨ kv.1 = "qurl".data))).map
        (fun kv => kv.2) by
    exact hgen ps false false
  intro l
  induction l with
  | nil => intro b1 b2; rfl
  | cons kv t ih =>
    intro b1 b2
    rw [List.foldl_cons]
    by_cases hu : kv.1 = "url".data
    · rw [if_pos ⟨hu, rfl⟩, targetScan_keep,
        List.find?_cons_of_pos _ (by simp [hu])]
      rfl
    · by_cases hqu : kv.1 = "qurl".data
      · rw [if_neg (fun hc => hu hc.1), if_pos ⟨hqu, rfl⟩, targetScan_keep,
          List.find?_cons_of_pos _ (by simp [hqu])]
        rfl
      · rw [if_neg (fun hc => hu hc.1), if_neg (fun hc => hqu hc.1),
          List.find?_cons_of_neg _ (by simp [hu, hqu])]
        exact ih b1 b2

/-! ## Claim theorems: the applying transform -/

/-- C1: when the transform applies, the promoted value is that of the first
`url`/`qurl` pair in scan order; the result string is the reassembly whose
query encodes the original pairs with every `url`/`qurl` pair removed and
`(qurl, once-decoded value)` appended at the end; and parsing that query
back yields exactly that parameter sequence (later target pairs dropped). -/
theorem normalize_promotes_first_target (u : Str) (p : ParseResult) (tv : Str)
    (hp : urlparse u = some p)
    (hlogin : hasSub "/login".data p.path = true)
    (hq : p.query ≠ [])
    (hs : (targetScan (parse_qsl true p.query)).1 = some tv) :
    some tv =
      ((parse_qsl true p.query).find? (fun kv =>
        decide (kv.1 = "url".data ∨ kv.1 = "qurl".data))).map (fun kv => kv.2) ∧
    (fix_ezproxy_url u).1 =
      urlunparse { p with query := urlencode (newParamsOf (parse_qsl true p.query) tv) } ∧
    parse_qsl true (urlencode (newParamsOf (parse_qsl true p.query) tv)) =
      (parse_qsl true p.query).filter nonTargetKV ++ [("qurl".data, unquote tv)] := by
  have hg : ¬(hasSub "/login".data p.path = false ∨ p.query = []) := by
    intro hc
    rcases hc with hc | hc
    · rw [hlogin] at hc
      cases hc
    · exact hq hc
  refine ⟨hs ▸ targetScan_find (parse_qsl true p.query), ?_, ?_⟩
  · rw [fix_apply hp hg hs]
  · rw [parse_qsl_urlencode]
    rfl

/-- C1 witness: Example 3 of the specification instantiates the theorem. -/
theorem normalize_promotes_first_target_app :
    (fix_ezproxy_url "http://x.ezproxy.lib/login?foo=1&url=http://a.com&bar=2".data).1 =
      urlunparse (⟨"http".data, "x.ezproxy.lib".data, "/login".data, [],
        urlencode (newParamsOf
          (parse_qsl true "foo=1&url=http://a.com&bar=2".data) "http://a.com".data),
        []⟩ : ParseResult) :=
  (normalize_promotes_first_target
    "http://x.ezproxy.lib/login?foo=1&url=http://a.com&bar=2".data
    ⟨"http".data, "x.ezproxy.lib".data, "/login".data, [],
      "foo=1&url=http://a.com&bar=2".data, []⟩
    "http://a.com".data (by decide) (by decide) (by decide) (by decide)).2.1

/-- C4: when the transform applies, the non-`url`/`qurl` parameters parsed
back from the rebuilt query are exactly the original ones, verbatim and in
their original relative order. -/
theorem normalize_preserves_other_params (u : Str) (p : ParseResult) (tv : Str)
    (hp : urlparse u = some p)
    (hlogin : hasSub "/login".data p.path = true)
    (hq : p.query ≠ [])
    (hs : (targetScan (parse_qsl true p.query)).1 = some tv) :
    (fix_ezproxy_url u).1 =
      urlunparse { p with query := urlencode (newParamsOf (parse_qsl true p.query) tv) } ∧
    (parse_qsl true (urlencode (newParamsOf (parse_qsl true p.query) tv))).filter
        nonTargetKV =
      (parse_qsl true p.query).filter nonTargetKV := by
  have hg : ¬(hasSub "/login".data p.path = false ∨ p.query = []) := by
    intro hc
    rcases hc with hc | hc
    · rw [hlogin] at hc
      cases hc
    · exact hq hc
  refine ⟨by rw [fix_apply hp hg hs], ?_⟩
  rw [parse_qsl_urlencode]
  unfold newParamsOf
  rw [List.filter_append]
  rw [show List.filter nonTargetKV [("qurl".data, unquote tv)] = [] from by
    rw [List.filter_cons, if_neg (by simp [nonTargetKV])]
    rfl]
  rw [List.append_nil]
  rw [List.filter_eq_self.2 (fun kv hm => (List.mem_filter.1 hm).2)]

/-- C4 witness: Example 3 of the specification instantiates the theorem. -/
theorem normalize_preserves_other_params_app :
    (parse_qsl true (urlencode (newParamsOf
        (parse_qsl true "foo=1&url=http://a.com&bar=2".data) "http://a.com".data))).filter
      nonTargetKV =
    (parse_qsl true "foo=1&url=http://a.com&bar=2".data).filter nonTargetKV :=
  (normalize_preserves_other_params
    "http://x.ezproxy.lib/login?foo=1&url=http://a.com&bar=2".data
    ⟨"http".data, "x.ezproxy.lib".data, "/login".data, [],
      "foo=1&url=http://a.com&bar=2".data, []⟩
    "http://a.com".data (by decide) (by decide) (by decide) (by decide)).2


/-! ## Reparsing a rebuilt URL (for the amended idempotence claim) -/

/-! ## Generic facts about the splitting helpers -/

theorem lowerChar_toNat (c : Char) :
    (lowerChar c).toNat = if 65 ≤ c.toNat ∧ c.toNat ≤ 90 then c.toNat + 32 else c.toNat := by
  unfold lowerChar
  by_cases h : 65 ≤ c.toNat ∧ c.toNat ≤ 90
  · rw [if_pos h, if_pos h, toNat_ofNat_small _ (by omega)]
  · rw [if_neg h, if_neg h]

theorem lowerChar_idem (c : Char) : lowerChar (lowerChar c) = lowerChar c := by
  unfold lowerChar
  by_cases h : 65 ≤ c.toNat ∧ c.toNat ≤ 90
  · rw [if_pos h, if_neg (by rw [toNat_ofNat_small _ (by omega)]; omega)]
  · rw [if_neg h, if_neg h]

theorem isSchemeChar_lowerChar {c : Char} (h : isSchemeChar c = true) :
    isSchemeChar (lowerChar c) = true := by
  simp only [isSchemeChar, isAsciiAlpha, isAsciiUpper, isAsciiLower, isAsciiDigit,
    Bool.or_eq_true, decide_eq_true_eq, lowerChar_toNat] at h ⊢
  by_cases hu : 65 ≤ c.toNat ∧ c.toNat ≤ 90
  · rw [if_pos hu]
    omega
  · rw [if_neg hu]
    omega

theorem isAsciiAlpha_lowerChar {c : Char} (h : isAsciiAlpha c = true) :
    isAsciiAlpha (lowerChar c) = true := by
  simp only [isAsciiAlpha, isAsciiUpper, isAsciiLower, Bool.or_eq_true,
    decide_eq_true_eq, lowerChar_toNat] at h ⊢
  by_cases hu : 65 ≤ c.toNat ∧ c.toNat ≤ 90
  · rw [if_pos hu]
    omega
  · rw [if_neg hu]
    omega

theorem lowerChar_ne_colon (c : Char) (h : c ≠ ':') : lowerChar c ≠ ':' := by
  intro he
  have := congrArg Char.toNat he
  rw [lowerChar_toNat] at this
  by_cases hu : 65 ≤ c.toNat ∧ c.toNat ≤ 90
  · rw [if_pos hu] at this
    have : c.toNat + 32 = 58 := this
    omega
  · rw [if_neg hu] at this
    exact h (Char.ofNat_toNat c ▸ this ▸ rfl)

theorem mem_of_mem_takeWhile {p : Char → Bool} {l : Str} {c : Char}
    (h : c ∈ l.takeWhile p) : c ∈ l := by
  have hsplit := List.takeWhile_append_dropWhile p l
  rw [← hsplit]
  exact List.mem_append_left _ h

theorem dropWhile_cons_prop {p : Char → Bool} {l : Str} {d : Char} {rest : Str}
    (h : l.dropWhile p = d :: rest) : p d = false := by
  induction l with
  | nil => cases h
  | cons a t ih =>
    rw [List.dropWhile_cons] at h
    by_cases hpa : p a = true
    · rw [if_pos hpa] at h
      exact ih h
    · rw [if_neg hpa] at h
      injection h with h1 _
      rw [← h1]
      exact Bool.eq_false_iff.2 hpa

theorem takeWhile_append_of_stop (p : Char → Bool) (x y : Str)
    (h : ∃ c ∈ x, p c = false) : (x ++ y).takeWhile p = x.takeWhile p := by
  induction x with
  | nil =>
    rcases h with ⟨c, hc, _⟩
    exact absurd hc (List.not_mem_nil c)
  | cons a t ih =>
    rw [List.cons_append]
    cases hpa : p a
    · rw [List.takeWhile_cons_of_neg (by rw [hpa]; exact Bool.false_ne_true),
        List.takeWhile_cons_of_neg (by rw [hpa]; exact Bool.false_ne_true)]
    · rw [List.takeWhile_cons_of_pos (by rw [hpa]), List.takeWhile_cons_of_pos (by rw [hpa])]
      rcases h with ⟨c, hc, hcp⟩
      rcases List.mem_cons.1 hc with hce | hct
      · rw [hce] at hcp
        rw [hpa] at hcp
        cases hcp
      · rw [ih ⟨c, hct, hcp⟩]

theorem takeWhile_length_lt_of_mem {c : Char} {s : Str} (h : c ∈ s) :
    (s.takeWhile (fun x => decide (x ≠ c))).length < s.length := by
  induction s with
  | nil => exact absurd h (List.not_mem_nil c)
  | cons a t ih =>
    by_cases hac : a = c
    · rw [List.takeWhile_cons_of_neg (by simp [hac])]
      simp
    · rw [List.takeWhile_cons_of_pos (by simp [hac])]
      rcases List.mem_cons.1 h with hce | hct
      · exact absurd hce.symm hac
      · simpa using ih hct

theorem takeWhile_eq_self_of_length {p : Char → Bool} {l : Str}
    (h : (l.takeWhile p).length = l.length) : l.takeWhile p = l := by
  have hsplit := List.takeWhile_append_dropWhile p l
  have hlen := congrArg List.length hsplit
  rw [List.length_append] at hlen
  have : (l.dropWhile p).length = 0 := by omega
  rw [List.length_eq_zero.1 this, List.append_nil] at hsplit
  exact hsplit

/-- Characterization of a successful `splitLast`. -/
theorem splitLast_some {c : Char} {s a b : Str} (h : splitLast c s = some (a, b)) :
    s = a ++ c :: b ∧ c ∉ b := by
  unfold splitLast at h
  by_cases hl : ((s.reverse.takeWhile (fun x => decide (x ≠ c))).reverse).length = s.length
  · rw [if_pos hl] at h
    cases h
  · rw [if_neg hl] at h
    injection h with h
    injection h with h1 h2
    subst h1
    subst h2
    set tk := s.reverse.takeWhile (fun x => decide (x ≠ c)) with htk
    have hdw : s.reverse.dropWhile (fun x => decide (x ≠ c)) ≠ [] := by
      intro hni
      apply hl
      have hx := List.takeWhile_append_dropWhile (fun x => decide (x ≠ c)) s.reverse
      rw [hni, List.append_nil] at hx
      rw [← htk] at hx
      rw [List.length_reverse, hx, List.length_reverse]
    rcases hne : s.reverse.dropWhile (fun x => decide (x ≠ c)) with _ | ⟨d, rest⟩
    · exact absurd hne hdw
    · have hd : d = c := by
        have := dropWhile_cons_prop hne
        simpa using this
      have hs : s.reverse = tk ++ c :: rest := by
        rw [← hd, htk, ← hne]
        exact (List.takeWhile_append_dropWhile _ _).symm
      have hsrev : s = rest.reverse ++ c :: tk.reverse := by
        have hx := congrArg List.reverse hs
        rw [List.reverse_reverse, List.reverse_append, List.reverse_cons,
          List.append_assoc] at hx
        simpa using hx
      have hcnot : c ∉ tk.reverse := by
        intro hm
        have := List.mem_takeWhile_imp (List.mem_reverse.1 hm)
        simp at this
      have hlen : s.length - tk.reverse.length - 1 = rest.reverse.length := by
        have hl2 := congrArg List.length hsrev
        simp only [List.length_append, List.length_cons, List.length_reverse] at hl2 ⊢
        omega
      refine ⟨?_, hcnot⟩
      rw [hlen]
      conv_lhs => rw [hsrev]
      congr 1
      rw [hsrev]
      exact (List.take_left rest.reverse (c :: tk.reverse)).symm

theorem splitLast_app (c : Char) (a b : Str) (h : c ∉ b) :
    splitLast c (a ++ c :: b) = some (a, b) := by
  unfold splitLast
  have hrev : (a ++ c :: b).reverse = b.reverse ++ c :: a.reverse := by
    rw [List.reverse_append, List.reverse_cons, List.append_assoc]
    rfl
  have htk : (a ++ c :: b).reverse.takeWhile (fun x => decide (x ≠ c)) = b.reverse := by
    rw [hrev]
    exact takeWhile_app_stop _ b.reverse c a.reverse
      (fun x hx => decide_eq_true (fun he => h (he ▸ List.mem_reverse.1 hx))) (by simp)
  rw [htk, List.reverse_reverse]
  rw [if_neg (by
    simp only [List.length_append, List.length_cons, List.length_reverse]
    omega)]
  have hlen : (a ++ c :: b).length - b.length - 1 = a.length := by
    simp only [List.length_append, List.length_cons]
    omega
  rw [hlen, show a ++ c :: b = a ++ (c :: b) from rfl, List.take_left]

theorem splitLast_none_imp {c : Char} {s : Str} (h : splitLast c s = none) : c ∉ s := by
  unfold splitLast at h
  by_cases hl : ((s.reverse.takeWhile (fun x => decide (x ≠ c))).reverse).length = s.length
  · intro hm
    rw [List.length_reverse] at hl
    have hself := takeWhile_eq_self_of_length (by rw [hl]; exact (List.length_reverse s).symm)
    have := List.mem_takeWhile_imp (hself ▸ List.mem_reverse.2 hm)
    simp at this
  · rw [if_neg hl] at h
    cases h

theorem afterLastSlash_app (a b : Str) (h : '/' ∉ b) :
    afterLastSlash (a ++ '/' :: b) = b := by
  unfold afterLastSlash
  have hrev : (a ++ '/' :: b).reverse = b.reverse ++ '/' :: a.reverse := by
    rw [List.reverse_append, List.reverse_cons, List.append_assoc]
    rfl
  have htk : (a ++ '/' :: b).reverse.takeWhile (fun x => decide (x ≠ '/')) = b.reverse := by
    rw [hrev]
    exact takeWhile_app_stop _ b.reverse '/' a.reverse
      (fun x hx => decide_eq_true (fun he => h (he ▸ List.mem_reverse.1 hx))) (by simp)
  rw [htk, List.reverse_reverse]

theorem takeWhile_all {p : Char → Bool} {l : Str} (h : ∀ x ∈ l, p x = true) :
    l.takeWhile p = l := by
  induction l with
  | nil => rfl
  | cons a t ih =>
    rw [List.takeWhile_cons_of_pos (h a (List.mem_cons_self a t)),
      ih (fun x hx => h x (List.mem_cons_of_mem a hx))]

theorem afterLastSlash_no (s : Str) (h : '/' ∉ s) : afterLastSlash s = s := by
  unfold afterLastSlash
  rw [@takeWhile_all (fun x => decide (x ≠ '/')) s.reverse (fun x hx => decide_eq_true
    (fun he => h (he ▸ List.mem_reverse.1 hx))), List.reverse_reverse]

theorem mem_afterLastSlash {c : Char} {s : Str} (h : c ∈ afterLastSlash s) : c ∈ s := by
  unfold afterLastSlash at h
  exact List.mem_reverse.1 (mem_of_mem_takeWhile (List.mem_reverse.1 h))

theorem mem_tabCrLf {c : Char} : c ∈ tabCrLf ↔ c = '\t' ∨ c = '\r' ∨ c = '\n' := by
  simp [tabCrLf]

theorem schemeChar_ne_colon {c : Char} (h : isSchemeChar c = true) : c ≠ ':' := by
  intro he
  subst he
  exact absurd h (by decide)

theorem schemeChar_not_tab {c : Char} (h : isSchemeChar c = true) : c ∉ tabCrLf := by
  intro hm
  rcases mem_tabCrLf.1 hm with he | he | he <;> subst he <;> exact absurd h (by decide)

theorem splitLast_no (c : Char) (s : Str) (h : c ∉ s) : splitLast c s = none := by
  simp only [splitLast]
  have hb : (s.reverse.takeWhile (fun x => decide (x ≠ c))).reverse = s := by
    rw [@takeWhile_all (fun x => decide (x ≠ c)) s.reverse
      (fun x hx => decide_eq_true (fun he => h (he ▸ List.mem_reverse.1 hx)))]
    exact List.reverse_reverse s
  rw [hb, if_pos rfl]

theorem exists_splitLast {c : Char} {s : Str} (h : c ∈ s) :
    ∃ a b, s = a ++ c :: b ∧ c ∉ b := by
  cases hsl : splitLast c s with
  | none => exact absurd h (splitLast_none_imp hsl)
  | some ab => exact ⟨ab.1, ab.2, splitLast_some hsl⟩

theorem afterLastSlash_cons_slash (s : Str) :
    afterLastSlash ('/' :: s) = afterLastSlash s := by
  by_cases hm : '/' ∈ s
  · obtain ⟨a, b, hd, hb⟩ := exists_splitLast hm
    rw [hd, afterLastSlash_app a b hb,
      show ('/' :: (a ++ '/' :: b) : Str) = ('/' :: a) ++ '/' :: b from rfl,
      afterLastSlash_app ('/' :: a) b hb]
  · rw [afterLastSlash_no s hm,
      show ('/' :: s : Str) = [] ++ '/' :: s from rfl, afterLastSlash_app [] s hm]

theorem splitFirstOr_app (c : Char) (a b : Str) (h : c ∉ a) :
    splitFirstOr c (a ++ c :: b) = (a, b) := by
  unfold splitFirstOr
  have hm : c ∈ a ++ c :: b := List.mem_append_right a (List.mem_cons_self c b)
  rw [if_pos hm, takeWhile_app_stop (fun x => decide (x ≠ c)) a c b
    (fun x hx => decide_eq_true (fun he => h (he ▸ hx))) (by simp), drop_app_succ]

theorem splitFirstOr_no (c : Char) (s : Str) (h : c ∉ s) : splitFirstOr c s = (s, []) := by
  unfold splitFirstOr
  rw [if_neg h]

theorem splitFirstOr_fst_not_mem (c : Char) (s : Str) : c ∉ (splitFirstOr c s).1 := by
  unfold splitFirstOr
  by_cases hm : c ∈ s
  · rw [if_pos hm]
    intro hmem
    have := List.mem_takeWhile_imp hmem
    simp at this
  · rw [if_neg hm]
    exact hm

theorem splitFirstOr_fst_sub {c : Char} {s : Str} : ∀ x ∈ (splitFirstOr c s).1, x ∈ s := by
  intro x hx
  unfold splitFirstOr at hx
  by_cases hm : c ∈ s
  · rw [if_pos hm] at hx
    exact mem_of_mem_takeWhile hx
  · rw [if_neg hm] at hx
    exact hx

theorem splitFirstOr_snd_sub {c : Char} {s : Str} : ∀ x ∈ (splitFirstOr c s).2, x ∈ s := by
  intro x hx
  unfold splitFirstOr at hx
  by_cases hm : c ∈ s
  · rw [if_pos hm] at hx
    exact List.mem_of_mem_drop hx
  · rw [if_neg hm] at hx
    exact absurd hx (List.not_mem_nil x)


theorem splitparams_cases (s : Str) :
    (splitparams s = (s, []) ∧
      (';' ∉ s ∨ ∃ a b, s = a ++ '/' :: b ∧ '/' ∉ b ∧ ';' ∉ b)) ∨
    (∃ a b, s = a ++ '/' :: b ∧ '/' ∉ b ∧ ';' ∈ b ∧
      splitparams s = (a ++ '/' :: b.takeWhile (fun x => decide (x ≠ ';')),
        b.drop ((b.takeWhile (fun x => decide (x ≠ ';'))).length + 1))) ∨
    ('/' ∉ s ∧ ';' ∈ s ∧
      splitparams s = (s.takeWhile (fun x => decide (x ≠ ';')),
        s.drop ((s.takeWhile (fun x => decide (x ≠ ';'))).length + 1))) := by
  by_cases hsemi : ';' ∈ s
  · rcases e : splitLast '/' s with _ | ⟨a, b⟩
    · right; right
      refine ⟨splitLast_none_imp e, hsemi, ?_⟩
      unfold splitparams
      rw [if_pos hsemi, e]
    · obtain ⟨hdecomp, hnb⟩ := splitLast_some e
      by_cases hb : ';' ∈ b
      · right; left
        refine ⟨a, b, hdecomp, hnb, hb, ?_⟩
        unfold splitparams
        rw [if_pos hsemi, e]
        show (if ';' ∈ b then (a ++ '/' :: b.takeWhile (fun x => decide (x ≠ ';')),
          b.drop ((b.takeWhile (fun x => decide (x ≠ ';'))).length + 1)) else (s, [])) = _
        rw [if_pos hb]
      · left
        refine ⟨?_, Or.inr ⟨a, b, hdecomp, hnb, hb⟩⟩
        unfold splitparams
        rw [if_pos hsemi, e]
        show (if ';' ∈ b then (a ++ '/' :: b.takeWhile (fun x => decide (x ≠ ';')),
          b.drop ((b.takeWhile (fun x => decide (x ≠ ';'))).length + 1)) else (s, [])) = _
        rw [if_neg hb]
  · left
    refine ⟨?_, Or.inl hsemi⟩
    unfold splitparams
    rw [if_neg hsemi]

theorem lastSlash_unique {c : Char} {a1 b1 a2 b2 : Str} (h : a1 ++ c :: b1 = a2 ++ c :: b2)
    (h1 : c ∉ b1) (h2 : c ∉ b2) : a1 = a2 ∧ b1 = b2 := by
  have e1 := splitLast_app c a1 b1 h1
  rw [h, splitLast_app c a2 b2 h2] at e1
  injection e1 with e
  exact ⟨(congrArg Prod.fst e).symm, (congrArg Prod.snd e).symm⟩

theorem splitparams_noparams (p : Str) (h1 : ';' ∉ afterLastSlash p) :
    splitparams p = (p, []) := by
  rcases splitparams_cases p with ⟨h, -⟩ | ⟨a, b, hd, hnb, hb, h⟩ | ⟨hns, hsemi, h⟩
  · exact h
  · exfalso
    apply h1
    rw [hd, afterLastSlash_app a b hnb]
    exact hb
  · exfalso
    apply h1
    rw [afterLastSlash_no p hns]
    exact hsemi

theorem splitparams_app (p ps : Str) (h1 : ';' ∉ afterLastSlash p) (h2 : '/' ∉ ps) :
    splitparams (p ++ ';' :: ps) = (p, ps) := by
  have hsm : ';' ∈ p ++ ';' :: ps := List.mem_append_right p (List.mem_cons_self ';' ps)
  rcases splitparams_cases (p ++ ';' :: ps) with ⟨h, hside⟩ | ⟨a, b, hd, hnb, hb, h⟩ |
    ⟨hns, hsemi, h⟩
  · exfalso
    rcases hside with hno | ⟨a, b, hd, hnb, hbno⟩
    · exact hno hsm
    · by_cases hsl : '/' ∈ p
      · obtain ⟨a2, b2, hd2, hnb2⟩ := exists_splitLast hsl
        have hb2 : ';' ∉ b2 := by
          rw [hd2, afterLastSlash_app a2 b2 hnb2] at h1
          exact h1
        have hd3 : (a2 : Str) ++ '/' :: (b2 ++ ';' :: ps) = a ++ '/' :: b := by
          rw [← hd, hd2]
          simp
        have hnb3 : '/' ∉ b2 ++ ';' :: ps := by
          intro hm
          rcases List.mem_append.1 hm with h' | h'
          · exact hnb2 h'
          · rcases List.mem_cons.1 h' with h'' | h''
            · exact absurd h'' (by decide)
            · exact h2 h''
        obtain ⟨-, hbeq⟩ := lastSlash_unique hd3 hnb3 hnb
        apply hbno
        rw [← hbeq]
        exact List.mem_append_right b2 (List.mem_cons_self ';' ps)
      · have : '/' ∈ p ++ ';' :: ps := by
          rw [hd]
          exact List.mem_append_right a (List.mem_cons_self '/' b)
        rcases List.mem_append.1 this with h' | h'
        · exact hsl h'
        · rcases List.mem_cons.1 h' with h'' | h''
          · exact absurd h'' (by decide)
          · exact h2 h''
  · by_cases hsl : '/' ∈ p
    · obtain ⟨a2, b2, hd2, hnb2⟩ := exists_splitLast hsl
      have hb2 : ';' ∉ b2 := by
        rw [hd2, afterLastSlash_app a2 b2 hnb2] at h1
        exact h1
      have hd3 : (a2 : Str) ++ '/' :: (b2 ++ ';' :: ps) = a ++ '/' :: b := by
        rw [← hd, hd2]
        simp
      have hnb3 : '/' ∉ b2 ++ ';' :: ps := by
        intro hm
        rcases List.mem_append.1 hm with h' | h'
        · exact hnb2 h'
        · rcases List.mem_cons.1 h' with h'' | h''
          · exact absurd h'' (by decide)
          · exact h2 h''
      obtain ⟨haeq, hbeq⟩ := lastSlash_unique hd3 hnb3 hnb
      rw [h, ← haeq, ← hbeq,
        takeWhile_app_stop (fun x => decide (x ≠ ';')) b2 ';' ps
          (fun x hx => decide_eq_true (fun he => hb2 (he ▸ hx))) (by simp),
        drop_app_succ, hd2]
    · exfalso
      have : '/' ∈ p ++ ';' :: ps := by
        rw [hd]
        exact List.mem_append_right a (List.mem_cons_self '/' b)
      rcases List.mem_append.1 this with h' | h'
      · exact hsl h'
      · rcases List.mem_cons.1 h' with h'' | h''
        · exact absurd h'' (by decide)
        · exact h2 h''
  · have hsp : ';' ∉ p := by
      intro hm
      apply h1
      rw [afterLastSlash_no p (fun hm2 => hns (List.mem_append_left _ hm2))]
      exact hm
    rw [h, takeWhile_app_stop (fun x => decide (x ≠ ';')) p ';' ps
      (fun x hx => decide_eq_true (fun he => hsp (he ▸ hx))) (by simp), drop_app_succ]

theorem splitparams_fst_sub {s : Str} : ∀ x ∈ (splitparams s).1, x ∈ s := by
  intro x hx
  rcases splitparams_cases s with ⟨h, -⟩ | ⟨a, b, hd, hnb, hb, h⟩ | ⟨hns, hsemi, h⟩
  · rw [h] at hx
    exact hx
  · rw [h] at hx
    have hx2 : x ∈ a ++ '/' :: b.takeWhile (fun x => decide (x ≠ ';')) := hx
    rw [hd]
    rcases List.mem_append.1 hx2 with h' | h'
    · exact List.mem_append_left _ h'
    · rcases List.mem_cons.1 h' with h'' | h''
      · subst h''
        exact List.mem_append_right _ (List.mem_cons_self '/' b)
      · exact List.mem_append_right _ (List.mem_cons_of_mem '/' (mem_of_mem_takeWhile h''))
  · rw [h] at hx
    exact mem_of_mem_takeWhile hx

theorem splitparams_snd_sub {s : Str} : ∀ x ∈ (splitparams s).2, x ∈ s := by
  intro x hx
  rcases splitparams_cases s with ⟨h, -⟩ | ⟨a, b, hd, hnb, hb, h⟩ | ⟨hns, hsemi, h⟩
  · rw [h] at hx
    exact absurd hx (List.not_mem_nil x)
  · rw [h] at hx
    rw [hd]
    exact List.mem_append_right _ (List.mem_cons_of_mem '/' (List.mem_of_mem_drop hx))
  · rw [h] at hx
    exact List.mem_of_mem_drop hx

theorem splitparams_snd_slash {s : Str} : '/' ∉ (splitparams s).2 := by
  intro hx
  rcases splitparams_cases s with ⟨h, -⟩ | ⟨a, b, hd, hnb, hb, h⟩ | ⟨hns, hsemi, h⟩
  · rw [h] at hx
    exact absurd hx (List.not_mem_nil '/')
  · rw [h] at hx
    exact hnb (List.mem_of_mem_drop hx)
  · rw [h] at hx
    exact hns (List.mem_of_mem_drop hx)

theorem splitparams_lastseg {s : Str} : ';' ∉ afterLastSlash (splitparams s).1 := by
  rcases splitparams_cases s with ⟨h, hside⟩ | ⟨a, b, hd, hnb, hb, h⟩ | ⟨hns, hsemi, h⟩
  · rw [h]
    rcases hside with hno | ⟨a, b, hd, hnb, hbno⟩
    · exact fun hm => hno (mem_afterLastSlash hm)
    · show ';' ∉ afterLastSlash s
      rw [hd, afterLastSlash_app a b hnb]
      exact hbno
  · rw [h]
    have htkn : '/' ∉ b.takeWhile (fun x => decide (x ≠ ';')) :=
      fun hm => hnb (mem_of_mem_takeWhile hm)
    show ';' ∉ afterLastSlash (a ++ '/' :: b.takeWhile (fun x => decide (x ≠ ';')))
    rw [afterLastSlash_app a _ htkn]
    intro hm
    have := List.mem_takeWhile_imp hm
    simp at this
  · rw [h]
    intro hm
    have := List.mem_takeWhile_imp (mem_afterLastSlash hm)
    simp at this

theorem splitScheme_cases (s : Str) :
    splitScheme s = ([], s) ∨
    (∃ pre, pre = s.takeWhile (fun c => decide (c ≠ ':')) ∧
      pre.length < s.length ∧ pre ≠ [] ∧ isAsciiAlpha (pre.headD ' ') = true ∧
      (∀ c ∈ pre, isSchemeChar c = true) ∧
      splitScheme s = (pre.map lowerChar, s.drop (pre.length + 1))) := by
  by_cases hcond : (s.takeWhile (fun c => decide (c ≠ ':'))).length < s.length ∧
      s.takeWhile (fun c => decide (c ≠ ':')) ≠ [] ∧
      isAsciiAlpha ((s.takeWhile (fun c => decide (c ≠ ':'))).headD ' ') = true ∧
      (∀ c ∈ s.takeWhile (fun c => decide (c ≠ ':')), isSchemeChar c = true)
  · right
    exact ⟨_, rfl, hcond.1, hcond.2.1, hcond.2.2.1, hcond.2.2.2, by
      simp only [splitScheme]
      rw [if_pos hcond]⟩
  · left
    simp only [splitScheme]
    rw [if_neg hcond]

theorem splitScheme_app (s rest : Str) (h1 : s ≠ [])
    (h2 : isAsciiAlpha (s.headD ' ') = true)
    (h3 : ∀ c ∈ s, isSchemeChar c = true)
    (h4 : s.map lowerChar = s) :
    splitScheme (s ++ ':' :: rest) = (s, rest) := by
  have htk : (s ++ ':' :: rest).takeWhile (fun c => decide (c ≠ ':')) = s :=
    takeWhile_app_stop (fun c => decide (c ≠ ':')) s ':' rest
      (fun c hc => decide_eq_true (schemeChar_ne_colon (h3 c hc))) (by simp)
  simp only [splitScheme]
  rw [htk, if_pos ⟨by rw [List.length_append, List.length_cons]; omega, h1, h2, h3⟩, h4,
    drop_app_succ]

theorem splitScheme_fst_chars {s : Str} : ∀ c ∈ (splitScheme s).1, isSchemeChar c = true := by
  intro c hc
  rcases splitScheme_cases s with h | ⟨pre, -, -, -, -, hall, h⟩
  · rw [h] at hc
    exact absurd hc (List.not_mem_nil c)
  · rw [h] at hc
    have hc2 : c ∈ pre.map lowerChar := hc
    obtain ⟨c0, hc0, rfl⟩ := List.mem_map.1 hc2
    exact isSchemeChar_lowerChar (hall c0 hc0)

theorem splitScheme_fst_head {s : Str} (h : (splitScheme s).1 ≠ []) :
    isAsciiAlpha ((splitScheme s).1.headD ' ') = true := by
  rcases splitScheme_cases s with he | ⟨pre, -, -, hne, hhd, -, he⟩
  · rw [he] at h
    exact absurd rfl h
  · rw [he]
    rcases pre with _ | ⟨a, t⟩
    · exact absurd rfl hne
    · exact isAsciiAlpha_lowerChar hhd

theorem splitScheme_fst_lower {s : Str} :
    (splitScheme s).1.map lowerChar = (splitScheme s).1 := by
  rcases splitScheme_cases s with he | ⟨pre, -, -, -, -, -, he⟩
  · rw [he]
    rfl
  · rw [he]
    show (pre.map lowerChar).map lowerChar = pre.map lowerChar
    rw [List.map_map]
    exact List.map_congr_left (fun a _ => lowerChar_idem a)

theorem splitScheme_snd_sub {s : Str} : ∀ c ∈ (splitScheme s).2, c ∈ s := by
  intro c hc
  rcases splitScheme_cases s with he | ⟨pre, -, -, -, -, -, he⟩
  · rw [he] at hc
    exact hc
  · rw [he] at hc
    exact List.mem_of_mem_drop hc

theorem splitNetloc_cases (s : Str) :
    (s.take 2 ≠ ['/', '/'] ∧ splitNetloc s = ([], s)) ∨
    (s.take 2 = ['/', '/'] ∧
      splitNetloc s =
        ((s.drop 2).takeWhile (fun c => decide (c ≠ '/' ∧ c ≠ '?' ∧ c ≠ '#')),
          (s.drop 2).drop
            (((s.drop 2).takeWhile (fun c => decide (c ≠ '/' ∧ c ≠ '?' ∧ c ≠ '#'))).length))) := by
  by_cases ht : s.take 2 = ['/', '/']
  · right
    exact ⟨ht, by
      simp only [splitNetloc]
      rw [if_pos ht]⟩
  · left
    exact ⟨ht, by
      simp only [splitNetloc]
      rw [if_neg ht]⟩

theorem splitNetloc_fst_props {s : Str} :
    ∀ c ∈ (splitNetloc s).1, (c ≠ '/' ∧ c ≠ '?' ∧ c ≠ '#') ∧ c ∈ s := by
  intro c hc
  rcases splitNetloc_cases s with ⟨-, he⟩ | ⟨-, he⟩
  · rw [he] at hc
    exact absurd hc (List.not_mem_nil c)
  · rw [he] at hc
    have hc2 : c ∈ (s.drop 2).takeWhile (fun c => decide (c ≠ '/' ∧ c ≠ '?' ∧ c ≠ '#')) := hc
    have h3 := List.mem_takeWhile_imp hc2
    exact ⟨of_decide_eq_true h3, List.mem_of_mem_drop (mem_of_mem_takeWhile hc2)⟩

theorem splitNetloc_snd_sub {s : Str} : ∀ c ∈ (splitNetloc s).2, c ∈ s := by
  intro c hc
  rcases splitNetloc_cases s with ⟨-, he⟩ | ⟨-, he⟩
  · rw [he] at hc
    exact hc
  · rw [he] at hc
    exact List.mem_of_mem_drop (List.mem_of_mem_drop hc)

theorem splitNetloc_app (nl : Str) (d : Char) (rest : Str)
    (hnl : ∀ c ∈ nl, c ≠ '/' ∧ c ≠ '?' ∧ c ≠ '#')
    (hd : d = '/' ∨ d = '?' ∨ d = '#') :
    splitNetloc ('/' :: '/' :: (nl ++ d :: rest)) = (nl, d :: rest) := by
  simp only [splitNetloc]
  rw [if_pos (show List.take 2 ('/' :: '/' :: (nl ++ d :: rest)) = ['/', '/'] from rfl)]
  have hdrop : (('/' :: '/' :: (nl ++ d :: rest) : Str)).drop 2 = nl ++ d :: rest := rfl
  rw [hdrop]
  have htk : (nl ++ d :: rest).takeWhile (fun c => decide (c ≠ '/' ∧ c ≠ '?' ∧ c ≠ '#')) = nl :=
    takeWhile_app_stop (fun c => decide (c ≠ '/' ∧ c ≠ '?' ∧ c ≠ '#')) nl d rest
      (fun c hc => decide_eq_true (hnl c hc))
      (by rcases hd with h | h | h <;> subst h <;> decide)
  rw [htk, List.drop_left]

theorem splitNetloc_app_nil (nl : Str) (hnl : ∀ c ∈ nl, c ≠ '/' ∧ c ≠ '?' ∧ c ≠ '#') :
    splitNetloc ('/' :: '/' :: nl) = (nl, []) := by
  simp only [splitNetloc]
  rw [if_pos (show List.take 2 ('/' :: '/' :: nl) = ['/', '/'] from rfl)]
  have hdrop : (('/' :: '/' :: nl : Str)).drop 2 = nl := rfl
  rw [hdrop, @takeWhile_all (fun c => decide (c ≠ '/' ∧ c ≠ '?' ∧ c ≠ '#')) nl
    (fun c hc => decide_eq_true (hnl c hc)), List.drop_length]

theorem cleanUrl_mem {u : Str} : ∀ c ∈ cleanUrl u, c ∉ tabCrLf := by
  intro c hc
  unfold cleanUrl at hc
  exact of_decide_eq_true (List.mem_filter.1 hc).2

theorem cleanUrl_id (s : Str) (h : ∀ c ∈ s, c ∉ tabCrLf) : cleanUrl s = s := by
  unfold cleanUrl
  induction s with
  | nil => rfl
  | cons a t ih =>
    rw [List.filter_cons, if_pos (decide_eq_true (h a (List.mem_cons_self a t))),
      ih (fun c hc => h c (List.mem_cons_of_mem a hc))]

theorem mem_joinSep {sep : Char} {l : List Str} {c : Char}
    (h : c ∈ joinSep sep l) : c = sep ∨ ∃ x ∈ l, c ∈ x := by
  induction l with
  | nil => exact absurd h (List.not_mem_nil c)
  | cons x t ih =>
    unfold joinSep at h
    rcases List.mem_append.1 h with h' | h'
    · exact Or.inr ⟨x, List.mem_cons_self x t, h'⟩
    · by_cases ht : t = []
      · rw [if_pos ht] at h'
        exact absurd h' (List.not_mem_nil c)
      · rw [if_neg ht] at h'
        rcases List.mem_cons.1 h' with h'' | h''
        · exact Or.inl h''
        · rcases ih h'' with h3 | ⟨y, hy, hcy⟩
          · exact Or.inl h3
          · exact Or.inr ⟨y, List.mem_cons_of_mem x hy, hcy⟩

theorem urlencode_mem {ps : List (Str × Str)} {c : Char} (h : c ∈ urlencode ps) :
    goodQChar c ∨ c = '&' ∨ c = '=' := by
  unfold urlencode at h
  rcases mem_joinSep h with h' | ⟨x, hx, hcx⟩
  · exact Or.inr (Or.inl h')
  · obtain ⟨kv, hkv, rfl⟩ := List.mem_map.1 hx
    rcases List.mem_append.1 hcx with h'' | h''
    · exact Or.inl (quote_good kv.1 c h'')
    · rcases List.mem_cons.1 h'' with h3 | h3
      · exact Or.inr (Or.inr h3)
      · exact Or.inl (quote_good kv.2 c h3)

theorem urlencode_good_chars {ps : List (Str × Str)} :
    ∀ c ∈ urlencode ps, c ≠ '#' ∧ c ≠ '?' ∧ c ≠ '/' ∧ c ≠ ';' ∧ c ≠ ':' ∧ c ∉ tabCrLf := by
  intro c hc
  rcases urlencode_mem hc with hg | he | he
  · refine ⟨fun he2 => ?_, fun he2 => ?_, fun he2 => ?_, fun he2 => ?_, fun he2 => ?_,
      fun hm => ?_⟩
    · subst he2; exact absurd hg (by decide)
    · subst he2; exact absurd hg (by decide)
    · subst he2; exact absurd hg (by decide)
    · subst he2; exact absurd hg (by decide)
    · subst he2; exact absurd hg (by decide)
    · rcases mem_tabCrLf.1 hm with he2 | he2 | he2 <;> subst he2 <;>
        exact absurd hg (by decide)
  · subst he
    exact ⟨by decide, by decide, by decide, by decide, by decide, by decide⟩
  · subst he
    exact ⟨by decide, by decide, by decide, by decide, by decide, by decide⟩

theorem urlencode_ne_nil {ps : List (Str × Str)} (h : ps ≠ []) : urlencode ps ≠ [] := by
  rcases ps with _ | ⟨kv, t⟩
  · exact absurd rfl h
  · unfold urlencode
    rw [List.map_cons]
    unfold joinSep
    intro he
    simp [List.append_eq_nil] at he

theorem urlparse_inv {u : Str} {p : ParseResult} (hp : urlparse u = some p) :
    bracketBad (splitNetloc (splitScheme (cleanUrl u)).2).1 = false ∧
    p = ⟨(splitScheme (cleanUrl u)).1,
      (splitNetloc (splitScheme (cleanUrl u)).2).1,
      (splitparams (splitFirstOr '?'
        (splitFirstOr '#' (splitNetloc (splitScheme (cleanUrl u)).2).2).1).1).1,
      (splitparams (splitFirstOr '?'
        (splitFirstOr '#' (splitNetloc (splitScheme (cleanUrl u)).2).2).1).1).2,
      (splitFirstOr '?' (splitFirstOr '#' (splitNetloc (splitScheme (cleanUrl u)).2).2).1).2,
      (splitFirstOr '#' (splitNetloc (splitScheme (cleanUrl u)).2).2).2⟩ := by
  simp only [urlparse] at hp
  by_cases hb : bracketBad (splitNetloc (splitScheme (cleanUrl u)).2).1 = true
  · rw [if_pos hb] at hp
    cases hp
  · rw [if_neg hb] at hp
    injection hp with h
    exact ⟨Bool.eq_false_iff.2 hb, h.symm⟩

theorem parse_props {u : Str} {p : ParseResult} (hp : urlparse u = some p) :
    (∀ c ∈ p.scheme, isSchemeChar c = true) ∧
    (p.scheme ≠ [] → isAsciiAlpha (p.scheme.headD ' ') = true) ∧
    p.scheme.map lowerChar = p.scheme ∧
    (∀ c ∈ p.netloc, (c ≠ '/' ∧ c ≠ '?' ∧ c ≠ '#') ∧ c ∉ tabCrLf) ∧
    bracketBad p.netloc = false ∧
    (∀ c ∈ p.path, c ≠ '?' ∧ c ≠ '#' ∧ c ∉ tabCrLf) ∧
    (∀ c ∈ p.params, c ≠ '?' ∧ c ≠ '#' ∧ c ∉ tabCrLf) ∧
    ('/' ∉ p.params) ∧
    (';' ∉ afterLastSlash p.path) ∧
    (∀ c ∈ p.fragment, c ∉ tabCrLf) := by
  obtain ⟨hbr, hpe⟩ := urlparse_inv hp
  subst hpe
  refine ⟨splitScheme_fst_chars, splitScheme_fst_head, splitScheme_fst_lower,
    ?_, hbr, ?_, ?_, splitparams_snd_slash, splitparams_lastseg, ?_⟩
  · intro c hc
    exact ⟨(splitNetloc_fst_props c hc).1,
      cleanUrl_mem c (splitScheme_snd_sub c (splitNetloc_fst_props c hc).2)⟩
  · intro c hc
    have h1 := splitparams_fst_sub c hc
    have h2 := splitFirstOr_fst_sub c h1
    have h3 := splitFirstOr_fst_sub c h2
    refine ⟨fun he => ?_, fun he => ?_, ?_⟩
    · subst he
      exact splitFirstOr_fst_not_mem '?' _ h1
    · subst he
      exact splitFirstOr_fst_not_mem '#' _ h2
    · exact cleanUrl_mem c (splitScheme_snd_sub c (splitNetloc_snd_sub c h3))
  · intro c hc
    have h1 := splitparams_snd_sub c hc
    have h2 := splitFirstOr_fst_sub c h1
    refine ⟨fun he => ?_, fun he => ?_, ?_⟩
    · subst he
      exact splitFirstOr_fst_not_mem '?' _ h1
    · subst he
      exact splitFirstOr_fst_not_mem '#' _ h2
    · exact cleanUrl_mem c (splitScheme_snd_sub c (splitNetloc_snd_sub c
        (splitFirstOr_fst_sub c h2)))
  · intro c hc
    exact cleanUrl_mem c (splitScheme_snd_sub c (splitNetloc_snd_sub c
      (splitFirstOr_snd_sub c hc)))

theorem urlparse_build {S sc rest1 nl rest2 uf1 fr uq1 q : Str}
    (h0 : cleanUrl S = S)
    (h1 : splitScheme S = (sc, rest1))
    (h2 : splitNetloc rest1 = (nl, rest2))
    (h3 : bracketBad nl = false)
    (h4 : splitFirstOr '#' rest2 = (uf1, fr))
    (h5 : splitFirstOr '?' uf1 = (uq1, q)) :
    urlparse S = some ⟨sc, nl, (splitparams uq1).1, (splitparams uq1).2, q, fr⟩ := by
  have h1a : (splitScheme S).1 = sc := by rw [h1]
  have h1b : (splitScheme S).2 = rest1 := by rw [h1]
  have h2a : (splitNetloc rest1).1 = nl := by rw [h2]
  have h2b : (splitNetloc rest1).2 = rest2 := by rw [h2]
  have h4a : (splitFirstOr '#' rest2).1 = uf1 := by rw [h4]
  have h4b : (splitFirstOr '#' rest2).2 = fr := by rw [h4]
  have h5a : (splitFirstOr '?' uf1).1 = uq1 := by rw [h5]
  have h5b : (splitFirstOr '?' uf1).2 = q := by rw [h5]
  simp only [urlparse]
  rw [h0, h1b, h2a, h2b, h4a, h4b, h5a, h5b, h1a,
    if_neg (show ¬(bracketBad nl = true) by rw [h3]; decide)]

theorem reparse_core (sc nl w q fr : Str)
    (hsc_ne : sc ≠ [])
    (hsc1 : ∀ c ∈ sc, isSchemeChar c = true)
    (hsc2 : isAsciiAlpha (sc.headD ' ') = true)
    (hsc3 : sc.map lowerChar = sc)
    (hnl : ∀ c ∈ nl, (c ≠ '/' ∧ c ≠ '?' ∧ c ≠ '#') ∧ c ∉ tabCrLf)
    (hbr : bracketBad nl = false)
    (hw0 : w = [] ∨ w.take 1 = ['/'])
    (hw : ∀ c ∈ w, c ≠ '?' ∧ c ≠ '#' ∧ c ∉ tabCrLf)
    (hq : ∀ c ∈ q, c ≠ '#' ∧ c ≠ '?' ∧ c ≠ '/' ∧ c ≠ ';' ∧ c ≠ ':' ∧ c ∉ tabCrLf)
    (hfr : ∀ c ∈ fr, c ∉ tabCrLf) :
    urlparse (sc ++ ':' :: '/' :: '/' :: (nl ++ (w ++ '?' :: q ++
        (if fr ≠ [] then '#' :: fr else [])))) =
      some ⟨sc, nl, (splitparams w).1, (splitparams w).2, q, fr⟩ := by
  set tf := (if fr ≠ [] then '#' :: fr else []) with htf
  have htf_mem : ∀ c ∈ tf, c = '#' ∨ c ∈ fr := by
    intro c hc
    rw [htf] at hc
    by_cases hfe : fr ≠ []
    · rw [if_pos hfe] at hc
      exact List.mem_cons.1 hc
    · rw [if_neg hfe] at hc
      exact absurd hc (List.not_mem_nil c)
  have hclean : cleanUrl (sc ++ ':' :: '/' :: '/' :: (nl ++ (w ++ '?' :: q ++ tf))) =
      sc ++ ':' :: '/' :: '/' :: (nl ++ (w ++ '?' :: q ++ tf)) := by
    apply cleanUrl_id
    intro c hc
    rcases List.mem_append.1 hc with h1 | h1
    · exact schemeChar_not_tab (hsc1 c h1)
    · rcases List.mem_cons.1 h1 with h2 | h2
      · subst h2; decide
      · rcases List.mem_cons.1 h2 with h3 | h3
        · subst h3; decide
        · rcases List.mem_cons.1 h3 with h4 | h4
          · subst h4; decide
          · rcases List.mem_append.1 h4 with h5 | h5
            · exact (hnl c h5).2
            · rcases List.mem_append.1 h5 with h6 | h6
              · rcases List.mem_append.1 h6 with h7 | h7
                · exact (hw c h7).2.2
                · rcases List.mem_cons.1 h7 with h8 | h8
                  · subst h8; decide
                  · exact (hq c h8).2.2.2.2.2
              · rcases htf_mem c h6 with h9 | h9
                · subst h9; decide
                · exact hfr c h9
  have hsch : splitScheme (sc ++ ':' :: '/' :: '/' :: (nl ++ (w ++ '?' :: q ++ tf))) =
      (sc, '/' :: '/' :: (nl ++ (w ++ '?' :: q ++ tf))) :=
    splitScheme_app sc _ hsc_ne hsc2 hsc1 hsc3
  have hnet : splitNetloc ('/' :: '/' :: (nl ++ (w ++ '?' :: q ++ tf))) =
      (nl, w ++ '?' :: q ++ tf) := by
    rcases hw0 with hwe | hws
    · subst hwe
      rw [List.nil_append, List.cons_append]
      exact splitNetloc_app nl '?' (q ++ tf) (fun c hc => (hnl c hc).1) (Or.inr (Or.inl rfl))
    · rcases w with _ | ⟨c, w2⟩
      · simp at hws
      · have hc : c = '/' := by
          have h0 : List.take 1 (c :: w2) = [c] := rfl
          rw [h0] at hws
          injection hws with h1 _
        subst hc
        rw [List.cons_append, List.cons_append]
        exact splitNetloc_app nl '/' ((w2 ++ '?' :: q) ++ tf)
          (fun c hc => (hnl c hc).1) (Or.inl rfl)
  have hnohash : '#' ∉ w ++ '?' :: q := by
    intro hm
    rcases List.mem_append.1 hm with h1 | h1
    · exact (hw '#' h1).2.1 rfl
    · rcases List.mem_cons.1 h1 with h2 | h2
      · exact absurd h2 (by decide)
      · exact (hq '#' h2).1 rfl
  have huf : splitFirstOr '#' (w ++ '?' :: q ++ tf) = (w ++ '?' :: q, fr) := by
    by_cases hfe : fr = []
    · rw [htf, if_neg (fun hne => hne hfe), List.append_nil, hfe]
      exact splitFirstOr_no '#' (w ++ '?' :: q) hnohash
    · rw [htf, if_pos hfe]
      exact splitFirstOr_app '#' (w ++ '?' :: q) fr hnohash
  have huq : splitFirstOr '?' (w ++ '?' :: q) = (w, q) :=
    splitFirstOr_app '?' w q (fun hm => (hw '?' hm).1 rfl)
  exact urlparse_build hclean hsch hnet hbr huf huq

theorem urlunsplit_netloc_form (sc nl u0 q fr : Str) (hnl_ne : nl ≠ []) (hsc_ne : sc ≠ [])
    (hq_ne : q ≠ []) :
    urlunsplit sc nl u0 q fr =
      sc ++ ':' :: '/' :: '/' ::
        (nl ++ (((if u0 ≠ [] ∧ u0.take 1 ≠ ['/'] then '/' :: u0 else u0) ++ '?' :: q) ++
          (if fr ≠ [] then '#' :: fr else []))) := by
  simp only [urlunsplit]
  rw [if_pos (Or.inl hnl_ne), if_pos hsc_ne, if_pos hq_ne]
  by_cases hfe : fr = []
  · rw [if_neg (show ¬(fr ≠ []) from fun hne => hne hfe),
      if_neg (show ¬(fr ≠ []) from fun hne => hne hfe), List.append_nil]
    simp [List.append_assoc]
  · rw [if_pos (show (fr ≠ []) from hfe), if_pos (show (fr ≠ []) from hfe)]
    simp [List.append_assoc]

theorem hasSub_cons {pat s : Str} (c : Char) (h : hasSub pat s = true) :
    hasSub pat (c :: s) = true := by
  show (decide ((c :: s).take pat.length = pat) || hasSub pat s) = true
  rw [h, Bool.or_true]

theorem reparse_full (sc nl pa pr q fr : Str)
    (hsc_ne : sc ≠ [])
    (hsc1 : ∀ c ∈ sc, isSchemeChar c = true)
    (hsc2 : isAsciiAlpha (sc.headD ' ') = true)
    (hsc3 : sc.map lowerChar = sc)
    (hnl_ne : nl ≠ [])
    (hnl : ∀ c ∈ nl, (c ≠ '/' ∧ c ≠ '?' ∧ c ≠ '#') ∧ c ∉ tabCrLf)
    (hbr : bracketBad nl = false)
    (hpa : ∀ c ∈ pa, c ≠ '?' ∧ c ≠ '#' ∧ c ∉ tabCrLf)
    (hpr : ∀ c ∈ pr, c ≠ '?' ∧ c ≠ '#' ∧ c ∉ tabCrLf)
    (hprs : '/' ∉ pr)
    (hseg : ';' ∉ afterLastSlash pa)
    (hfr : ∀ c ∈ fr, c ∉ tabCrLf)
    (hq_ne : q ≠ [])
    (hq : ∀ c ∈ q, c ≠ '#' ∧ c ≠ '?' ∧ c ≠ '/' ∧ c ≠ ';' ∧ c ≠ ':' ∧ c ∉ tabCrLf) :
    ∃ pa2,
      urlparse (urlunparse ⟨sc, nl, pa, pr, q, fr⟩) = some ⟨sc, nl, pa2, pr, q, fr⟩ ∧
      urlunparse ⟨sc, nl, pa2, pr, q, fr⟩ = urlunparse ⟨sc, nl, pa, pr, q, fr⟩ ∧
      (hasSub "/login".data pa = true → hasSub "/login".data pa2 = true) := by
  set u0 := (if pr ≠ [] then pa ++ ';' :: pr else pa) with hu0def
  have hu0 : ∀ c ∈ u0, c ≠ '?' ∧ c ≠ '#' ∧ c ∉ tabCrLf := by
    rw [hu0def]
    by_cases hpre : pr = []
    · rw [if_neg (fun hne => hne hpre)]
      exact hpa
    · rw [if_pos hpre]
      intro c hc
      rcases List.mem_append.1 hc with h1 | h1
      · exact hpa c h1
      · rcases List.mem_cons.1 h1 with h2 | h2
        · subst h2
          exact ⟨by decide, by decide, by decide⟩
        · exact hpr c h2
  have hsp : splitparams u0 = (pa, pr) := by
    by_cases hpre : pr = []
    · rw [hu0def, if_neg (fun hne => hne hpre), hpre]
      exact splitparams_noparams pa hseg
    · rw [hu0def, if_pos hpre]
      exact splitparams_app pa pr hseg hprs
  have hunp : urlunparse ⟨sc, nl, pa, pr, q, fr⟩ = urlunsplit sc nl u0 q fr := rfl
  by_cases hprep : u0 ≠ [] ∧ u0.take 1 ≠ ['/']
  · refine ⟨'/' :: pa, ?_, ?_, fun h => hasSub_cons '/' h⟩
    · rw [hunp, urlunsplit_netloc_form sc nl u0 q fr hnl_ne hsc_ne hq_ne, if_pos hprep]
      have hw : ∀ c ∈ ('/' :: u0 : Str), c ≠ '?' ∧ c ≠ '#' ∧ c ∉ tabCrLf := by
        intro c hc
        rcases List.mem_cons.1 hc with h1 | h1
        · subst h1
          exact ⟨by decide, by decide, by decide⟩
        · exact hu0 c h1
      have hcore := reparse_core sc nl ('/' :: u0) q fr hsc_ne hsc1 hsc2 hsc3 hnl hbr
        (Or.inr rfl) hw hq hfr
      have hsp2 : splitparams ('/' :: u0) = ('/' :: pa, pr) := by
        by_cases hpre : pr = []
        · rw [hu0def, if_neg (fun hne => hne hpre), hpre]
          exact splitparams_noparams ('/' :: pa)
            (by rw [afterLastSlash_cons_slash]; exact hseg)
        · rw [hu0def, if_pos hpre,
            show ('/' :: (pa ++ ';' :: pr) : Str) = ('/' :: pa) ++ ';' :: pr from rfl]
          exact splitparams_app ('/' :: pa) pr
            (by rw [afterLastSlash_cons_slash]; exact hseg) hprs
      have hsp2a : (splitparams ('/' :: u0)).1 = '/' :: pa := by rw [hsp2]
      have hsp2b : (splitparams ('/' :: u0)).2 = pr := by rw [hsp2]
      rw [hsp2a, hsp2b] at hcore
      exact hcore
    · have hu0b : (if pr ≠ [] then ('/' :: pa) ++ ';' :: pr else ('/' :: pa)) = '/' :: u0 := by
        by_cases hpre : pr = []
        · rw [if_neg (fun hne => hne hpre), hu0def, if_neg (fun hne => hne hpre)]
        · rw [if_pos hpre, hu0def, if_pos hpre]
          rfl
      have hunp2 : urlunparse ⟨sc, nl, '/' :: pa, pr, q, fr⟩ =
          urlunsplit sc nl ('/' :: u0) q fr := by
        show urlunsplit sc nl (if pr ≠ [] then ('/' :: pa) ++ ';' :: pr else ('/' :: pa)) q fr
          = _
        rw [hu0b]
      rw [hunp, hunp2, urlunsplit_netloc_form sc nl u0 q fr hnl_ne hsc_ne hq_ne,
        urlunsplit_netloc_form sc nl ('/' :: u0) q fr hnl_ne hsc_ne hq_ne,
        if_pos hprep, if_neg (show ¬(('/' :: u0 : Str) ≠ [] ∧
          ('/' :: u0 : Str).take 1 ≠ ['/']) from fun hcon => hcon.2 rfl)]
  · refine ⟨pa, ?_, rfl, fun h => h⟩
    rw [hunp, urlunsplit_netloc_form sc nl u0 q fr hnl_ne hsc_ne hq_ne, if_neg hprep]
    have hw0 : u0 = [] ∨ u0.take 1 = ['/'] := by
      by_cases h1 : u0 = []
      · exact Or.inl h1
      · exact Or.inr (not_not.1 (fun hne => hprep ⟨h1, hne⟩))
    have hcore := reparse_core sc nl u0 q fr hsc_ne hsc1 hsc2 hsc3 hnl hbr hw0 hu0 hq hfr
    have hspa : (splitparams u0).1 = pa := by rw [hsp]
    have hspb : (splitparams u0).2 = pr := by rw [hsp]
    rw [hspa, hspb] at hcore
    exact hcore

theorem targetScan_kept_qurl (ps : List (Str × Str)) (raw : Str) :
    targetScan (ps.filter nonTargetKV ++ [("qurl".data, raw)]) = (some raw, false, true) := by
  unfold targetScan
  rw [List.foldl_append, targetScan_foldl_no_target (ps.filter nonTargetKV)
    (fun kv hkv => of_decide_eq_true (List.mem_filter.1 hkv).2) (none, false, false)]
  rfl

theorem filter_nonTarget_idem (ps : List (Str × Str)) :
    (ps.filter nonTargetKV).filter nonTargetKV = ps.filter nonTargetKV :=
  List.filter_eq_self.2 (fun _kv hkv => (List.mem_filter.1 hkv).2)

theorem newParams_of_kept (ps : List (Str × Str)) (raw : Str) :
    newParamsOf (ps.filter nonTargetKV ++ [("qurl".data, raw)]) raw =
      ps.filter nonTargetKV ++ [("qurl".data, unquote raw)] := by
  unfold newParamsOf
  rw [List.filter_append, filter_nonTarget_idem,
    show (([("qurl".data, raw)] : List (Str × Str)).filter nonTargetKV) = [] from rfl,
    List.append_nil]

theorem rawTargetOf_eq {u : Str} {p : ParseResult} {tv : Str} (hp : urlparse u = some p)
    (hg : ¬(hasSub "/login".data p.path = false ∨ p.query = []))
    (hs : (targetScan (parse_qsl true p.query)).1 = some tv) :
    rawTargetOf u = some (unquote tv) := by
  simp only [rawTargetOf, hp]
  rw [if_neg hg]
  simp only [hs]

/-- C3 (amended): `fix_ezproxy_url` is idempotent on its result string provided
(a) the once-decoded promoted target value is stable under a further
`unquote` (no remaining percent-escapes that would decode again), and
(b) the URL parses with a nonempty scheme and a nonempty netloc (ruling out
the empty-netloc corner in which `urlunsplit` collapses a leading slash run). -/
theorem normalize_idempotent_of_stable (u : Str)
    (hstable : unquote ((rawTargetOf u).getD []) = (rawTargetOf u).getD [])
    (hcomp : ∀ pr, urlparse u = some pr → pr.scheme ≠ [] ∧ pr.netloc ≠ []) :
    (fix_ezproxy_url (fix_ezproxy_url u).1).1 = (fix_ezproxy_url u).1 := by
  cases hp : urlparse u with
  | none =>
    rw [fix_parse_none hp]
    show (fix_ezproxy_url u).1 = u
    rw [fix_parse_none hp]
  | some p =>
    by_cases hg : hasSub "/login".data p.path = false ∨ p.query = []
    · rw [fix_guard hp hg]
      show (fix_ezproxy_url u).1 = u
      rw [fix_guard hp hg]
    · cases hs : (targetScan (parse_qsl true p.query)).1 with
      | none =>
        rw [fix_no_target hp hg hs]
        show (fix_ezproxy_url u).1 = u
        rw [fix_no_target hp hg hs]
      | some tv =>
        rw [fix_apply hp hg hs]
        show (fix_ezproxy_url (urlunparse
            { p with query := urlencode (newParamsOf (parse_qsl true p.query) tv) })).1 =
          urlunparse { p with query := urlencode (newParamsOf (parse_qsl true p.query) tv) }
        obtain ⟨q2, hq2def⟩ :
            ∃ q2, urlencode (newParamsOf (parse_qsl true p.query) tv) = q2 := ⟨_, rfl⟩
        rw [hq2def]
        show (fix_ezproxy_url (urlunparse
            (⟨p.scheme, p.netloc, p.path, p.params, q2, p.fragment⟩ : ParseResult))).1 =
          urlunparse (⟨p.scheme, p.netloc, p.path, p.params, q2, p.fragment⟩ : ParseResult)
        obtain ⟨hcs, hcn⟩ := hcomp p hp
        obtain ⟨hsc1, hsc2, hsc3, hnlp, hbr, hpap, hprp, hprs, hseg, hfrp⟩ := parse_props hp
        have hq2ne : q2 ≠ [] := by
          rw [← hq2def]
          apply urlencode_ne_nil
          intro he
          unfold newParamsOf at he
          simp at he
        have hq2good : ∀ c ∈ q2,
            c ≠ '#' ∧ c ≠ '?' ∧ c ≠ '/' ∧ c ≠ ';' ∧ c ≠ ':' ∧ c ∉ tabCrLf := by
          rw [← hq2def]
          exact urlencode_good_chars
        obtain ⟨pa2, hparse2, hunp2, hsub2⟩ := reparse_full p.scheme p.netloc p.path p.params
          q2 p.fragment hcs hsc1 (hsc2 hcs) hsc3 hcn hnlp hbr hpap hprp hprs hseg hfrp
          hq2ne hq2good
        have hsub1 : hasSub "/login".data p.path = true := by
          cases hval : hasSub "/login".data p.path
          · exact absurd (Or.inl hval) hg
          · rfl
        have hps2 : parse_qsl true q2 = newParamsOf (parse_qsl true p.query) tv := by
          rw [← hq2def]
          exact parse_qsl_urlencode _
        have hraw : unquote (unquote tv) = unquote tv := by
          have h1 : rawTargetOf u = some (unquote tv) := rawTargetOf_eq hp hg hs
          rw [h1, Option.getD_some] at hstable
          exact hstable
        have hscanfull : targetScan (parse_qsl true q2) = (some (unquote tv), false, true) := by
          rw [hps2]
          show targetScan ((parse_qsl true p.query).filter nonTargetKV ++
            [("qurl".data, unquote tv)]) = _
          exact targetScan_kept_qurl _ _
        have hscan2 : (targetScan (parse_qsl true q2)).1 = some (unquote tv) := by
          rw [hscanfull]
        have hguard : ¬(hasSub "/login".data
            ((⟨p.scheme, p.netloc, pa2, p.params, q2, p.fragment⟩ : ParseResult)).path = false ∨
            ((⟨p.scheme, p.netloc, pa2, p.params, q2, p.fragment⟩ : ParseResult)).query = []) := by
          intro hcon
          rcases hcon with hcon | hcon
          · have h2 : hasSub "/login".data pa2 = false := hcon
            exact Bool.noConfusion ((hsub2 hsub1).symm.trans h2)
          · exact hq2ne hcon
        have hq3 : urlencode (newParamsOf (parse_qsl true q2) (unquote tv)) = q2 := by
          rw [hps2]
          show urlencode (newParamsOf ((parse_qsl true p.query).filter nonTargetKV ++
            [("qurl".data, unquote tv)]) (unquote tv)) = q2
          rw [newParams_of_kept, hraw, ← hq2def]
          rfl
        rw [fix_apply hparse2 hguard hscan2]
        show urlunparse (⟨p.scheme, p.netloc, pa2, p.params,
            urlencode (newParamsOf (parse_qsl true q2) (unquote tv)), p.fragment⟩ :
            ParseResult) =
          urlunparse (⟨p.scheme, p.netloc, p.path, p.params, q2, p.fragment⟩ : ParseResult)
        rw [hq3]
        exact hunp2

theorem normalize_idempotent_of_stable_app :
    (∀ pr, urlparse "http://x.ezproxy.lib/login?url=http://a.com".data = some pr →
      pr.scheme ≠ [] ∧ pr.netloc ≠ []) ∧
    unquote ((rawTargetOf "http://x.ezproxy.lib/login?url=http://a.com".data).getD []) =
      (rawTargetOf "http://x.ezproxy.lib/login?url=http://a.com".data).getD [] ∧
    (fix_ezproxy_url
        (fix_ezproxy_url "http://x.ezproxy.lib/login?url=http://a.com".data).1).1 =
      (fix_ezproxy_url "http://x.ezproxy.lib/login?url=http://a.com".data).1 := by
  have hco : ∀ pr, urlparse "http://x.ezproxy.lib/login?url=http://a.com".data = some pr →
      pr.scheme ≠ [] ∧ pr.netloc ≠ [] := by
    intro pr hpr
    have he : urlparse "http://x.ezproxy.lib/login?url=http://a.com".data =
        some (⟨"http".data, "x.ezproxy.lib".data, "/login".data, [],
          "url=http://a.com".data, []⟩ : ParseResult) := by decide
    rw [he] at hpr
    injection hpr with h
    subst h
    exact ⟨by decide, by decide⟩
  have hst : unquote ((rawTargetOf "http://x.ezproxy.lib/login?url=http://a.com".data).getD
      []) = (rawTargetOf "http://x.ezproxy.lib/login?url=http://a.com".data).getD [] := by
    decide
  exact ⟨hco, hst, normalize_idempotent_of_stable _ hst hco⟩

end Qurls
